import Mathlib

/-!
Verification of the section-renumbering engine of `renumber_utils.py`.

Embedding conventions:
* Python strings are modelled as `List Char`; `str.strip()` is `pyStrip`
  (ASCII whitespace, matching the characters Python strips for the inputs
  considered here), and the regex character class `\d` is modelled as
  ASCII `Char.isDigit`.
* A page dict `{"id": ..., "subject": ..., "children": [...]}` is the
  inductive `Page`; the `children` key is modelled as always present
  (Python code reads it with `page.get('children', [])`).
* `book_data` is modelled by its `pages` forest (`List Page`).
* Integers from Python are `Int` where they can go negative (`offset`,
  the running counter) and `Nat` for page ids.
* Regular-expression operations of `apply_renumbering` are implemented as
  executable scanners (`pySubHeaders`, `pySearchHeader`) that realise the
  semantics of `re.sub`/`re.search` with pattern `^(#+\s+)OLD(?=\D|$)` in
  MULTILINE mode for the numeric `OLD` patterns this program uses (the
  first character of `OLD` is a digit, so the greedy runs of `#` and of
  whitespace need no backtracking).  Note `\s` matches a newline, so a
  match may start on one line and end on the next; the scanners implement
  exactly that.
* Recursions are structural (mutual where needed) or fuelled by
  `cs.length + 1` so that every definition evaluates by kernel reduction.
-/

set_option linter.unusedVariables false

/-- A page of a book: `id`, `subject` (title) and ordered children. -/
inductive Page : Type where
  | node (id : Nat) (subject : List Char) (children : List Page)
deriving Repr

def Page.id : Page → Nat
  | .node i _ _ => i

def Page.subject : Page → List Char
  | .node _ s _ => s

def Page.children : Page → List Page
  | .node _ _ c => c

/-- Characters stripped by Python's `str.strip()` / matched by `\s`. -/
def pyIsSpace (c : Char) : Bool :=
  c = ' ' || c = '\t' || c = '\n' || c = '\r' || c = '\x0B' || c = '\x0C'

/-- Python `str.strip()`. -/
def pyStrip (cs : List Char) : List Char :=
  ((cs.dropWhile pyIsSpace).reverse.dropWhile pyIsSpace).reverse

/-- Scanner for the regex `\d+(?:\.\d+)*`, assuming the first character of
the input has already been checked to be a digit.  Greedily consumes digit
runs separated by single periods; a period not followed by a digit ends
the match. -/
def numMatch : List Char → List Char
  | [] => []
  | c :: cs =>
    if c.isDigit then c :: numMatch cs
    else if c = '.' then
      match cs with
      | [] => []
      | d :: _ => if d.isDigit then '.' :: numMatch cs else []
    else []

/-- `get_page_number(subject)`: `re.match(r'^(\d+(?:\.\d+)*)', subject.strip())`,
returning the matched dotted number or `None`. -/
def get_page_number (subject : List Char) : Option (List Char) :=
  match pyStrip subject with
  | [] => none
  | c :: cs => if c.isDigit then some (numMatch (c :: cs)) else none

/-- Python `s.split('.')`. -/
def splitDots : List Char → List (List Char)
  | [] => [[]]
  | c :: cs =>
    if c = '.' then [] :: splitDots cs
    else
      match splitDots cs with
      | [] => [[c]]
      | l :: ls => (c :: l) :: ls

/-- Python `'.'.join(parts)`. -/
def joinDots : List (List Char) → List Char
  | [] => []
  | [p] => p
  | p :: ps => p ++ '.' :: joinDots ps

/-- Python `int(s)` restricted to the all-digit strings this program feeds
it; any other input raised `ValueError` in Python and is `none` here. -/
def parseNat (cs : List Char) : Option Nat :=
  if !cs.isEmpty && cs.all Char.isDigit then
    some (cs.foldl (fun a c => a * 10 + (c.toNat - 48)) 0)
  else none

def natCharsGo : Nat → Nat → List Char
  | 0, _ => []
  | fuel + 1, n =>
    if n < 10 then [Char.ofNat (48 + n)]
    else natCharsGo fuel (n / 10) ++ [Char.ofNat (48 + n % 10)]

/-- Decimal digits of a natural number, most significant first. -/
def natChars (n : Nat) : List Char := natCharsGo (n + 1) n

/-- Python `str(i)` for an integer. -/
def intChars (i : Int) : List Char :=
  if i < 0 then '-' :: natChars i.natAbs else natChars i.natAbs

/-- `replace_prefix(number, old_prefix, new_prefix)`: plain string-prefix
replacement — if `number` starts with `old_prefix` (no period check), the
prefix is swapped, else `number` is returned unchanged. -/
def replace_prefix (number : List Char) ( old_prefix new_prefix : List Char) : List Char :=
  if old_prefix.isPrefixOf number then new_prefix ++ number.drop old_prefix.length
  else number

mutual
/-- A page followed by the preorder traversal of its descendants; this is
what `add_page_and_descendants(page, acc)` appends to `acc`. -/
def subtreePages : Page → List Page
  | .node i s cs => .node i s cs :: forestPages cs

/-- Preorder traversal of a forest. -/
def forestPages : List Page → List Page
  | [] => []
  | p :: ps => subtreePages p ++ forestPages ps
end

/-- Inner loop of `find_parent`: for each child, return `parent` if the
child's id matches, otherwise search the child's own subtree
(`find_parent([child], target_id)` in Python, which immediately loops over
that child's children — inlined here so the recursion is structural). -/
def fpChildren : Page → List Page → Nat → Option Page
  | _, [], _ => none
  | parent, (Page.node i s cs) :: rest, t =>
    if i = t then some parent
    else
      match fpChildren (Page.node i s cs) cs t with
      | some r => some r
      | none => fpChildren parent rest t

/-- `find_parent(pages, target_id)`. -/
def find_parent : List Page → Nat → Option Page
  | [], _ => none
  | p :: ps, t =>
    match fpChildren p p.children t with
    | some r => some r
    | none => find_parent ps t

/-- The Python `find_parent([child], t)` call is the inlined child search. -/
theorem find_parent_singleton (c : Page) (t : Nat) :
    find_parent [c] t = fpChildren c c.children t := by
  show (match fpChildren c c.children t with
        | some r => some r
        | none => find_parent [] t) = fpChildren c c.children t
  cases fpChildren c c.children t <;> rfl

/-- The sibling list used by both `find_target_pages` and
`create_renumbering_plan`: the parent's children if a parent exists, else
the top-level forest. -/
def all_siblings_of (forest : List Page) (startId : Nat) : List Page :=
  match find_parent forest startId with
  | some parent => parent.children
  | none => forest

/-- The first index of `startId` in the sibling list (`-1` in Python is
`none` here). -/
def start_index_of (forest : List Page) (startId : Nat) : Option Nat :=
  (all_siblings_of forest startId).findIdx? (fun p => p.id == startId)

/-- `find_target_pages(book_data, start_page_id)`: the siblings from the
start page onwards, each flattened together with its descendants.  (The
`traverse` closure defined at the top of the Python function is dead code
— it is never called — and is omitted.) -/
def find_target_pages (forest : List Page) (startId : Nat) : List Page :=
  match start_index_of forest startId with
  | none => []
  | some i => (((all_siblings_of forest startId).drop i).map subtreePages).flatten

/-- One entry of a renumbering plan. -/
structure PlanEntry where
  page_id : Nat
  subject : List Char
  old_number : List Char
  new_number : List Char
deriving Repr, DecidableEq

mutual
/-- Loop body of `create_descendant_plan` for a single page: emit an entry
when the page's number carries the migrated prefix, and only then recurse
into its children. -/
def cdpPage : Page → List Char → List Char → List PlanEntry
  | .node pid subj cs, parent_old_number, parent_new_number =>
    match get_page_number subj with
    | none => []
    | some old_number =>
      if (parent_old_number ++ ['.']).isPrefixOf old_number then
        (if replace_prefix old_number parent_old_number parent_new_number ≠ old_number then
          [⟨pid, subj, old_number,
            replace_prefix old_number parent_old_number parent_new_number⟩]
         else [])
        ++ create_descendant_plan cs parent_old_number parent_new_number
      else []

/-- `create_descendant_plan(pages, parent_old_number, parent_new_number)`. -/
def create_descendant_plan : List Page → List Char → List Char → List PlanEntry
  | [], _, _ => []
  | p :: rest, parent_old_number, parent_new_number =>
    cdpPage p parent_old_number parent_new_number
    ++ create_descendant_plan rest parent_old_number parent_new_number
end

/-- Innermost piece of phase 1 of the start-number computation: split the
preceding sibling's parsed number, parse its last component, and reject
the result when `parts[:-1]` is empty (the Python
`if not base_number_parts:` falsy test then sends the caller into the
fallback). -/
def phase1_tail (prev_num : List Char) (offset : Int) : Option (List (List Char) × Int) :=
  match parseNat ((splitDots prev_num).getLastD []) with
  | none => none
  | some last =>
    if (splitDots prev_num).dropLast = [] then none
    else some ((splitDots prev_num).dropLast, (last : Int) + offset + 1)

/-- Phase 1 at a fixed preceding sibling: parse its title's number. -/
def phase1_prev (prev : Page) (offset : Int) : Option (List (List Char) × Int) :=
  match get_page_number prev.subject with
  | none => none
  | some prev_num => phase1_tail prev_num offset

/-- Phase 1 of the start-number computation of `create_renumbering_plan`
(the `if start_index > 0:` block). -/
def plan_base_phase1 (all_siblings : List Page) :
    Option Nat → Int → Option (List (List Char) × Int)
  | none, _ => none
  | some i, offset =>
    if i = 0 then none
    else
      match all_siblings[i - 1]? with
      | none => none
      | some prev => phase1_prev prev offset

/-- The fallback of the start-number computation (the
`if not base_number_parts:` block): parse the first target sibling's own
number and add `offset` to its last component. -/
def plan_base_fallback (target_siblings : List Page) (offset : Int) :
    Option (List (List Char) × Int) :=
  match target_siblings with
  | [] => none
  | first_target :: _ =>
    match get_page_number first_target.subject with
    | none => none
    | some old_num =>
      match parseNat ((splitDots old_num).getLastD []) with
      | none => none
      | some last => some ((splitDots old_num).dropLast, (last : Int) + offset)

/-- Step 3 of `create_renumbering_plan` (the "시작 번호 결정" block):
compute `(base_number_parts, start_last_num)`, or `none` when the function
gives up and returns an empty plan. -/
def plan_base (all_siblings target_siblings : List Page) (start_index : Option Nat)
    (offset : Int) : Option (List (List Char) × Int) :=
  match plan_base_phase1 all_siblings start_index offset with
  | some r => some r
  | none => plan_base_fallback target_siblings offset

/-- The sibling loop body (step 4-1 of `create_renumbering_plan`): state is
`(current_last_num, plan)`.  A sibling without a parsable number leaves the
state untouched (`continue` skips the `current_last_num += 1`). -/
def sibling_step (base_number_parts : List (List Char)) (st : Int × List PlanEntry)
    (page : Page) : Int × List PlanEntry :=
  match get_page_number page.subject with
  | none => st
  | some old_number =>
    let new_number := joinDots (base_number_parts ++ [intChars st.1])
    let plan1 :=
      if new_number ≠ old_number then
        st.2 ++ [⟨page.id, page.subject, old_number, new_number⟩]
      else st.2
    (st.1 + 1, plan1 ++ create_descendant_plan page.children old_number new_number)

/-- The siblings of the start page that occur among the targets, in
sibling order (`target_siblings` in the Python). -/
def target_siblings_of (forest : List Page) (startId : Nat) : List Page :=
  (all_siblings_of forest startId).filter
    (fun p => ((find_target_pages forest startId).map Page.id).contains p.id)

/-- `create_renumbering_plan(book_data, start_page_id, offset)`. -/
def create_renumbering_plan (forest : List Page) (startId : Nat) (offset : Int) :
    List PlanEntry :=
  if (find_target_pages forest startId).isEmpty then []
  else
    match plan_base (all_siblings_of forest startId) (target_siblings_of forest startId)
        (start_index_of forest startId) offset with
    | none => []
    | some (base_number_parts, start_last_num) =>
      ((target_siblings_of forest startId).foldl (sibling_step base_number_parts)
        (start_last_num, [])).2

/-- The lookahead `(?=\D|$)`: end of input, or a non-digit next character
(`\D` also matches a newline, which subsumes the MULTILINE `$`). -/
def boundaryB : List Char → Bool
  | [] => true
  | c :: _ => !c.isDigit

def hashRun (cs : List Char) : List Char := cs.takeWhile (fun c => c = '#')

def wsRun (cs : List Char) : List Char := cs.takeWhile pyIsSpace

/-- Whether the regex `^(#+\s+)OLD(?=\D|$)` matches at this position of
the text: a nonempty run of `#`, a nonempty run of whitespace (possibly
crossing newlines), the literal `old`, and the boundary lookahead. -/
def matchAtB (old cs : List Char) : Bool :=
  let hs := hashRun cs
  let t1 := cs.drop hs.length
  let ws := wsRun t1
  let t2 := t1.drop ws.length
  !hs.isEmpty && !ws.isEmpty && old.isPrefixOf t2 && boundaryB (t2.drop old.length)

/-- The text from this position up to (excluding) the next newline. -/
def lineOf (cs : List Char) : List Char := cs.takeWhile (fun c => c ≠ '\n')

/-- The regex group 1 at a matching position: the `#`-run followed by the
whitespace-run. -/
def groupOf (cs : List Char) : List Char :=
  hashRun cs ++ wsRun (cs.drop (hashRun cs).length)

/-- The text following the matched `old` at a matching position. -/
def afterMatch (old cs : List Char) : List Char :=
  ((cs.drop (hashRun cs).length).drop (wsRun (cs.drop (hashRun cs).length)).length).drop
    old.length

/-- Fuelled scanner realising `re.sub` for the heading pattern: at each
line start, if the pattern matches, keep the `#`-run and whitespace-run
(group 1), emit `new` in place of `old`, and continue after the match;
otherwise copy the line unchanged (a match can only begin at a `^`
position). -/
def auxScanF (old new : List Char) : Nat → List Char → List Char
  | 0, _ => []
  | fuel + 1, cs =>
    if cs.isEmpty then []
    else if matchAtB old cs then
      match (afterMatch old cs).drop (lineOf (afterMatch old cs)).length with
      | [] => groupOf cs ++ new ++ lineOf (afterMatch old cs)
      | _ :: rest2 =>
        groupOf cs ++ new ++ lineOf (afterMatch old cs) ++ '\n' :: auxScanF old new fuel rest2
    else
      match cs.drop (lineOf cs).length with
      | [] => lineOf cs
      | _ :: rest2 => lineOf cs ++ '\n' :: auxScanF old new fuel rest2

/-- `header_pattern.sub(r'\g<1>' + new_number, content)`. -/
def pySubHeaders (old new cs : List Char) : List Char :=
  auxScanF old new (cs.length + 1) cs

/-- Fuelled scanner realising `re.search` for the heading pattern. -/
def hasMatchF (old : List Char) : Nat → List Char → Bool
  | 0, _ => false
  | fuel + 1, cs =>
    matchAtB old cs ||
      match cs.drop (lineOf cs).length with
      | [] => false
      | _ :: rest2 => hasMatchF old fuel rest2

/-- `header_pattern.search(content)`. -/
def pySearchHeader (old cs : List Char) : Bool :=
  hasMatchF old (cs.length + 1) cs

/-- The title test of `apply_renumbering`: `subject.strip()` starts with
`old_number` and the regex `^OLD(?=\D|$)` matches (the prefix test is
subsumed by the regex). -/
def titleMatchB (old stripped : List Char) : Bool :=
  old.isPrefixOf stripped && boundaryB (stripped.drop old.length)

/-- `apply_renumbering(subject, content, old_number, new_number)`.
Returns `(new_subject, new_content, changed)`.  When the title matches,
the replacement is performed on the *stripped* title (as in the Python,
which substitutes into `subject.strip()`). -/
def apply_renumbering (subject content : List Char) ( old_number new_number : List Char) :
    List Char × List Char × Bool :=
  let s := pyStrip subject
  let title_hit := titleMatchB old_number s
  let new_subject := if title_hit then new_number ++ s.drop old_number.length else subject
  let body_hit := pySearchHeader old_number content
  let new_content := if body_hit then pySubHeaders old_number new_number content else content
  (new_subject, new_content, title_hit || body_hit)

/-! Specification-side definitions (used to state properties; written from
the spec's words, to be compared with the code-side functions above). -/

/-- Python `content.split('\n')` — the lines of a text. -/
def splitLines : List Char → List (List Char)
  | [] => [[]]
  | c :: cs =>
    if c = '\n' then [] :: splitLines cs
    else
      match splitLines cs with
      | [] => [[c]]
      | l :: ls => (c :: l) :: ls

/-- Inverse of `splitLines`: `'\n'.join(lines)`. -/
def joinLines : List (List Char) → List Char
  | [] => []
  | [l] => l
  | l :: ls => l ++ '\n' :: joinLines ls

/-- Per-line heading rewrite: if the heading pattern matches the line,
replace only the number, keeping marker, whitespace and tail. -/
def rewriteLine (old new L : List Char) : List Char :=
  if matchAtB old L then groupOf L ++ new ++ afterMatch old L
  else L

/-- A line consisting of one or more `#` followed only by whitespace (if
anything); on such a line the heading pattern's whitespace run crosses
into the next line. -/
def hashWsOnlyB (L : List Char) : Bool :=
  !(hashRun L).isEmpty && (L.drop (hashRun L).length).all pyIsSpace

/-- A body none of whose lines are `#`-and-whitespace only; on such a body
every heading match stays within a single line. -/
def lineRegularB (content : List Char) : Bool :=
  (splitLines content).all (fun L => !hashWsOnlyB L)

/-- `cs` is exactly a well-formed dotted number (what `get_page_number`
would return unchanged). -/
def validNumberB (cs : List Char) : Bool :=
  decide (get_page_number cs = some cs)

/-- Specification mirror of `phase1_tail`, written from the amended claim
C4: the preceding sibling's number is usable only when it has at least
two components. -/
def phase1_tail_spec (prev_num : List Char) (offset : Int) :
    Option (List (List Char) × Int) :=
  if (splitDots prev_num).length < 2 then none
  else
    match parseNat ((splitDots prev_num).getLastD []) with
    | none => none
    | some last => some ((splitDots prev_num).dropLast, (last : Int) + offset + 1)

/-- Specification mirror of `phase1_prev`. -/
def phase1_prev_spec (prev : Page) (offset : Int) : Option (List (List Char) × Int) :=
  match get_page_number prev.subject with
  | none => none
  | some prev_num => phase1_tail_spec prev_num offset

/-- Specification mirror of `plan_base_phase1`. -/
def plan_base_spec_phase1 (all_siblings : List Page) :
    Option Nat → Int → Option (List (List Char) × Int)
  | none, _ => none
  | some i, offset =>
    if i = 0 then none
    else
      match all_siblings[i - 1]? with
      | none => none
      | some prev => phase1_prev_spec prev offset

/-- Specification mirror of `plan_base`, written from the amended claim
C4: the preceding sibling's number is used only when it parses *and* has
at least two components; otherwise the first target sibling's own number
is used; if that fails too, `none`. -/
def plan_base_spec (all_siblings target_siblings : List Page) (start_index : Option Nat)
    (offset : Int) : Option (List (List Char) × Int) :=
  match plan_base_spec_phase1 all_siblings start_index offset with
  | some r => some r
  | none => plan_base_fallback target_siblings offset

/-! Example forests used by concrete scenario theorems. -/

/-- Siblings "5.1 Intro", "5.2 Setup", "5.3 Usage" under a common parent. -/
def forestC1 : List Page :=
  [Page.node 10 "5 Chapter".toList
    [Page.node 1 "5.1 Intro".toList [],
     Page.node 2 "5.2 Setup".toList [],
     Page.node 3 "5.3 Usage".toList []]]

/-- Siblings "7 Alpha", "10 Beta": the preceding sibling's number parses
but has a single component. -/
def forestC4 : List Page :=
  [Page.node 10 "Ch".toList
    [Page.node 1 "7 Alpha".toList [],
     Page.node 2 "10 Beta".toList []]]

/-- A renumbered sibling "5.2 B" with an unnumbered child "Untitled" whose
own child "5.2.1.1 Deep" carries the migrated prefix. -/
def forestC6 : List Page :=
  [Page.node 10 "5 Ch".toList
    [Page.node 1 "5.1 A".toList [],
     Page.node 2 "5.2 B".toList
       [Page.node 3 "Untitled".toList
         [Page.node 4 "5.2.1.1 Deep".toList []]]]]

/-- C1: for siblings "5.1 Intro", "5.2 Setup", "5.3 Usage" under a common
parent, `create_renumbering_plan` at the id of "5.2 Setup" with offset 1
returns exactly the two entries "5.2"→"5.3" (Setup) and "5.3"→"5.4"
(Usage), in that order, and no entry for "5.1 Intro". -/
theorem renumbering_plan_insert_scenario :
    create_renumbering_plan forestC1 2 1 =
      [⟨2, "5.2 Setup".toList, "5.2".toList, "5.3".toList⟩,
       ⟨3, "5.3 Usage".toList, "5.3".toList, "5.4".toList⟩] ∧
    ∀ e ∈ create_renumbering_plan forestC1 2 1, e.page_id ≠ 1 := by
  decide

/-- C2 counterexample: `replace_prefix` checks a plain string prefix, so
`replace_prefix("5.20", "5.2", "5.3")` returns `"5.30"`, not the
unchanged `"5.20"` the claim requires. -/
theorem replace_prefix_no_period_counterexample :
    replace_prefix "5.20".toList "5.2".toList "5.3".toList = "5.30".toList ∧
    "5.30".toList ≠ "5.20".toList := by
  decide

/-- C2 amended: `replace_prefix(p + "." + rest, p, q) = q + "." + rest`
always, and `replace_prefix(x, p, q) = x` whenever `x` does not start
with the plain prefix `p` (a string `x` that starts with `p` but not with
`p + "."`, such as `"5.20"` for `p = "5.2"`, still gets its prefix
replaced; callers must check for the following period themselves). -/
theorem replace_prefix_amended (p q rest x : List Char)
    (h : p.isPrefixOf x = false) :
    replace_prefix (p ++ '.' :: rest) p q = q ++ '.' :: rest ∧
    replace_prefix x p q = x := by
  constructor
  · show (if p.isPrefixOf (p ++ '.' :: rest) then
        q ++ (p ++ '.' :: rest).drop p.length else p ++ '.' :: rest) = q ++ '.' :: rest
    rw [List.isPrefixOf_iff_prefix.mpr (List.prefix_append p ('.' :: rest)),
      if_pos rfl, List.drop_left]
  · show (if p.isPrefixOf x then q ++ x.drop p.length else x) = x
    rw [h]
    rfl

/-- C2 amended, witness at `p = "5.2"`, `q = "5.3"`, `rest = "1"`,
`x = "6.1"`. -/
theorem replace_prefix_amended_witness :
    ("5.2".toList.isPrefixOf "6.1".toList = false) ∧
    ( replace_prefix ("5.2".toList ++ '.' :: "1".toList) "5.2".toList "5.3".toList =
        "5.3".toList ++ '.' :: "1".toList ∧
      replace_prefix "6.1".toList "5.2".toList "5.3".toList = "6.1".toList) :=
  ⟨by decide, replace_prefix_amended "5.2".toList "5.3".toList "1".toList "6.1".toList
    (by decide)⟩

/-- C4 counterexample: siblings "7 Alpha", "10 Beta", start at "10 Beta",
offset 1.  The preceding sibling's number "7" parses (last component 7),
so the claim demands the first renumbered sibling get last component
7 + 1 + 1 = 9; but `parts[:-1]` is empty, the Python
`if not base_number_parts:` test fires, and the code falls back to the
start page's own number, producing "11" (= 10 + 1). -/
theorem plan_start_number_counterexample :
    create_renumbering_plan forestC4 2 1 =
      [⟨2, "10 Beta".toList, "10".toList, "11".toList⟩] ∧
    ∀ e ∈ create_renumbering_plan forestC4 2 1, e.new_number ≠ "9".toList := by
  decide

/-- C6 counterexample: sibling "5.2 B" is renumbered to "5.3", its child
"Untitled" has no parsable number, and the grandchild "5.2.1.1 Deep" has
a number prefixed by "5.2." — the claim demands a plan entry for the
grandchild, but `create_descendant_plan` only recurses into a page's
children when that page itself passed the prefix test, so page 4 gets no
entry. -/
theorem descendant_plan_blocked_counterexample :
    create_renumbering_plan forestC6 2 1 =
      [⟨2, "5.2 B".toList, "5.2".toList, "5.3".toList⟩] ∧
    ∀ e ∈ create_renumbering_plan forestC6 2 1, e.page_id ≠ 4 := by
  decide

/-- C7 counterexample: in the body "##\n5.2 x" the heading regex's `\s+`
matches the newline, so the second line "5.2 x" — which is not of heading
shape (it does not begin with '#') — is rewritten to "5.3 x", violating
the claim that non-heading lines are never modified. -/
theorem heading_rewrite_crossline_counterexample :
    (apply_renumbering [] "##\n5.2 x".toList "5.2".toList "5.3".toList).2.1 =
      "##\n5.3 x".toList ∧
    splitLines "##\n5.2 x".toList = ["##".toList, "5.2 x".toList] ∧
    splitLines "##\n5.3 x".toList = ["##".toList, "5.3 x".toList] ∧
    "5.3 x".toList ≠ "5.2 x".toList := by
  decide

/-- C8 counterexample: with `old_number = "5.2"` and
`new_number = "5.2.1"` (distinct dotted numbers), applying the patch to
title "5.2 x" yields "5.2.1 x", and a second application matches again
("5.2" is a boundary prefix of "5.2.1"), returning `changed = true` and a
different title "5.2.1.1 x" — not the no-op the claim requires. -/
theorem apply_renumbering_not_idempotent_counterexample :
    apply_renumbering "5.2 x".toList [] "5.2".toList "5.2.1".toList =
      ("5.2.1 x".toList, [], true) ∧
    apply_renumbering "5.2.1 x".toList [] "5.2".toList "5.2.1".toList =
      ("5.2.1.1 x".toList, [], true) := by
  decide

/-- C10 counterexample: with `old_number = new_number = "5.2"` and the
title " 5.2 X" (leading space), the pattern matches the trimmed title, so
`changed = true`, but the returned title is the *stripped* "5.2 X" — not
textually identical to the input. -/
theorem changed_flag_strip_counterexample :
    apply_renumbering " 5.2 X".toList [] "5.2".toList "5.2".toList =
      ("5.2 X".toList, [], true) ∧
    "5.2 X".toList ≠ " 5.2 X".toList := by
  decide

/-! Tree lemmas: preorder traversal, `find_parent` soundness and
completeness. -/

/-- Induction over a forest of pages: the property may be assumed for a
node's children and for the remaining siblings. -/
theorem forest_ind (P : List Page → Prop) (h0 : P [])
    (h1 : ∀ i s cs ps, P cs → P ps → P (Page.node i s cs :: ps)) : ∀ ps, P ps
  | [] => h0
  | (Page.node i s cs) :: ps => h1 i s cs ps (forest_ind P h0 h1 cs) (forest_ind P h0 h1 ps)

theorem subtreePages_eq (p : Page) : subtreePages p = p :: forestPages p.children := by
  cases p
  rfl

theorem forestPages_cons (p : Page) (ps : List Page) :
    forestPages (p :: ps) = subtreePages p ++ forestPages ps := by
  cases p
  rfl

theorem self_mem_forestPages : ∀ ps : List Page, ∀ p ∈ ps, p ∈ forestPages ps := by
  intro ps
  induction ps with
  | nil => intro p h; cases h
  | cons q qs ih =>
    intro p hp
    rw [forestPages_cons]
    rcases List.mem_cons.mp hp with h | h
    · refine List.mem_append_left _ ?_
      rw [subtreePages_eq, h]
      exact List.mem_cons_self _ _
    · exact List.mem_append_right _ (ih p h)

theorem mem_forestPages_iff (q : Page) : ∀ ps : List Page,
    q ∈ forestPages ps ↔ ∃ s ∈ ps, q ∈ subtreePages s := by
  intro ps
  induction ps with
  | nil => simp [forestPages]
  | cons p ps ih =>
    rw [forestPages_cons, List.mem_append, ih]
    constructor
    · rintro (h | ⟨s, hs, hq⟩)
      · exact ⟨p, List.mem_cons_self p ps, h⟩
      · exact ⟨s, List.mem_cons_of_mem p hs, hq⟩
    · rintro ⟨s, hs, hq⟩
      rcases List.mem_cons.mp hs with h | h
      · exact Or.inl (h ▸ hq)
      · exact Or.inr ⟨s, h, hq⟩

theorem subtree_closed : ∀ ps : List Page, ∀ q ∈ forestPages ps,
    ∀ r ∈ subtreePages q, r ∈ forestPages ps := by
  refine forest_ind _ (by intro q hq; cases hq) ?_
  intro i s cs ps ihc ihp q hq r hr
  rw [forestPages_cons] at hq ⊢
  rcases List.mem_append.mp hq with h | h
  · rw [subtreePages_eq] at h
    rcases List.mem_cons.mp h with h | h
    · exact List.mem_append_left _ (h ▸ hr)
    · have : r ∈ forestPages cs := ihc q h r hr
      exact List.mem_append_left _ (subtreePages_eq _ ▸ List.mem_cons_of_mem _ this)
  · exact List.mem_append_right _ (ihp q h r hr)

theorem children_sub_forest {ps : List Page} {q c : Page}
    (hq : q ∈ forestPages ps) (hc : c ∈ q.children) : c ∈ forestPages ps := by
  refine subtree_closed ps q hq c ?_
  rw [subtreePages_eq]
  exact List.mem_cons_of_mem _ (self_mem_forestPages _ c hc)

theorem root_or_child : ∀ ps : List Page, ∀ q ∈ forestPages ps,
    q ∈ ps ∨ ∃ r ∈ forestPages ps, q ∈ r.children := by
  refine forest_ind _ (by intro q hq; cases hq) ?_
  intro i s cs ps ihc ihp q hq
  rw [forestPages_cons] at hq
  rcases List.mem_append.mp hq with h | h
  · rw [subtreePages_eq] at h
    rcases List.mem_cons.mp h with h | h
    · exact Or.inl (h ▸ List.mem_cons_self _ _)
    · rcases ihc q h with h' | ⟨r, hr, hqr⟩
      · refine Or.inr ⟨Page.node i s cs, ?_, h'⟩
        rw [forestPages_cons, subtreePages_eq]
        exact List.mem_append_left _ (List.mem_cons_self _ _)
      · refine Or.inr ⟨r, ?_, hqr⟩
        rw [forestPages_cons, subtreePages_eq]
        exact List.mem_append_left _ (List.mem_cons_of_mem _ hr)
  · rcases ihp q h with h' | ⟨r, hr, hqr⟩
    · exact Or.inl (List.mem_cons_of_mem _ h')
    · refine Or.inr ⟨r, ?_, hqr⟩
      rw [forestPages_cons]
      exact List.mem_append_right _ hr

theorem fpChildren_sound : ∀ children : List Page, ∀ parent : Page, ∀ t : Nat, ∀ p : Page,
    fpChildren parent children t = some p →
    (p = parent ∧ ∃ c ∈ children, c.id = t) ∨
    (p ∈ forestPages children ∧ ∃ c ∈ p.children, c.id = t) := by
  refine forest_ind _ (by intro parent t p h; cases h) ?_
  intro i s cs ps ihc ihp parent t p h
  rw [fpChildren] at h
  by_cases hit : i = t
  · rw [if_pos hit] at h
    injection h with h'
    exact Or.inl ⟨h'.symm, Page.node i s cs, List.mem_cons_self _ _, hit⟩
  · rw [if_neg hit] at h
    cases hrec : fpChildren (Page.node i s cs) cs t with
    | some r =>
      rw [hrec] at h
      cases h
      rcases ihc _ _ p hrec with ⟨hp, c, hc, hct⟩ | ⟨hp, c, hc, hct⟩
      · refine Or.inr ⟨?_, ?_⟩
        · rw [forestPages_cons]
          exact List.mem_append_left _ (subtreePages_eq _ ▸ (hp ▸ List.mem_cons_self _ _))
        · exact ⟨c, by rw [hp]; exact hc, hct⟩
      · refine Or.inr ⟨?_, c, hc, hct⟩
        rw [forestPages_cons, subtreePages_eq]
        exact List.mem_append_left _ (List.mem_cons_of_mem _ hp)
    | none =>
      rw [hrec] at h
      rcases ihp parent t p h with ⟨hp, c, hc, hct⟩ | ⟨hp, c, hc, hct⟩
      · exact Or.inl ⟨hp, c, List.mem_cons_of_mem _ hc, hct⟩
      · refine Or.inr ⟨?_, c, hc, hct⟩
        rw [forestPages_cons]
        exact List.mem_append_right _ hp

theorem find_parent_sound : ∀ pages : List Page, ∀ t : Nat, ∀ p : Page,
    find_parent pages t = some p →
    p ∈ forestPages pages ∧ ∃ c ∈ p.children, c.id = t := by
  intro pages
  induction pages with
  | nil => intro t p h; cases h
  | cons q qs ih =>
    intro t p h
    rw [find_parent] at h
    cases hrec : fpChildren q q.children t with
    | some r =>
      rw [hrec] at h
      cases h
      rcases fpChildren_sound _ _ _ p hrec with ⟨hp, c, hc, hct⟩ | ⟨hp, c, hc, hct⟩
      · constructor
        · rw [forestPages_cons]
          exact List.mem_append_left _ (subtreePages_eq _ ▸ (hp ▸ List.mem_cons_self _ _))
        · exact ⟨c, by rw [hp]; exact hc, hct⟩
      · constructor
        · rw [forestPages_cons, subtreePages_eq]
          exact List.mem_append_left _ (List.mem_cons_of_mem _ hp)
        · exact ⟨c, hc, hct⟩
    | none =>
      rw [hrec] at h
      obtain ⟨hp, hex⟩ := ih t p h
      refine ⟨?_, hex⟩
      rw [forestPages_cons]
      exact List.mem_append_right _ hp

theorem fpChildren_none : ∀ children : List Page, ∀ parent : Page, ∀ t : Nat,
    fpChildren parent children t = none →
    (∀ c ∈ children, c.id ≠ t) ∧
    (∀ q ∈ forestPages children, ∀ c ∈ q.children, c.id ≠ t) := by
  refine forest_ind _ ?_ ?_
  · intro parent t _
    refine ⟨?_, ?_⟩
    · intro c hc
      cases hc
    · intro q hq
      cases hq
  · intro i s cs ps ihc ihp parent t h
    rw [fpChildren] at h
    by_cases hit : i = t
    · rw [if_pos hit] at h; cases h
    · rw [if_neg hit] at h
      cases hrec : fpChildren (Page.node i s cs) cs t with
      | some r => rw [hrec] at h; cases h
      | none =>
        rw [hrec] at h
        obtain ⟨hcs1, hcs2⟩ := ihc _ _ hrec
        obtain ⟨hps1, hps2⟩ := ihp _ _ h
        constructor
        · intro c hc
          rcases List.mem_cons.mp hc with h' | h'
          · subst h'; exact hit
          · exact hps1 c h'
        · intro q hq c hc
          rw [forestPages_cons, subtreePages_eq] at hq
          rcases List.mem_append.mp hq with h' | h'
          · rcases List.mem_cons.mp h' with h'' | h''
            · subst h''
              exact hcs1 c hc
            · exact hcs2 q h'' c hc
          · exact hps2 q h' c hc

theorem find_parent_none : ∀ pages : List Page, ∀ t : Nat,
    find_parent pages t = none →
    ∀ q ∈ forestPages pages, ∀ c ∈ q.children, c.id ≠ t := by
  intro pages
  induction pages with
  | nil => intro t _ q hq; cases hq
  | cons p ps ih =>
    intro t h q hq c hc
    rw [find_parent] at h
    cases hrec : fpChildren p p.children t with
    | some r => rw [hrec] at h; cases h
    | none =>
      rw [hrec] at h
      obtain ⟨h1, h2⟩ := fpChildren_none _ _ _ hrec
      rw [forestPages_cons, subtreePages_eq] at hq
      rcases List.mem_append.mp hq with h' | h'
      · rcases List.mem_cons.mp h' with h'' | h''
        · subst h''; exact h1 c hc
        · exact h2 q h'' c hc
      · exact ih t h q h' c hc

theorem subtree_infix : ∀ ps : List Page, ∀ q ∈ forestPages ps,
    subtreePages q <:+: forestPages ps := by
  refine forest_ind _ (by intro q hq; cases hq) ?_
  intro i s cs ps ihc ihp q hq
  rw [forestPages_cons] at hq ⊢
  rcases List.mem_append.mp hq with h | h
  · rw [subtreePages_eq] at h
    rcases List.mem_cons.mp h with h | h
    · rw [h]
      exact (List.prefix_append _ _).isInfix
    · refine (ihc q h).trans ⟨[Page.node i s cs], forestPages ps, ?_⟩
      rw [subtreePages_eq]
      rfl
  · exact (ihp q h).trans (List.suffix_append _ _).isInfix

theorem roots_ids_sublist : ∀ ps : List Page,
    List.Sublist (ps.map Page.id) ((forestPages ps).map Page.id) := by
  intro ps
  induction ps with
  | nil => simp [forestPages]
  | cons p ps ih =>
    rw [forestPages_cons, List.map_append, subtreePages_eq, List.map_cons, List.map_cons]
    exact List.Sublist.cons₂ p.id (ih.trans (List.sublist_append_right _ _))

/-- C9: if the start id occurs nowhere in the forest,
`create_renumbering_plan` returns the empty plan. -/
theorem plan_empty_for_absent_id (forest : List Page) (startId : Nat) (offset : Int)
    (h : startId ∉ (forestPages forest).map Page.id) :
    create_renumbering_plan forest startId offset = [] := by
  have hnone : find_parent forest startId = none := by
    cases hfp : find_parent forest startId with
    | none => rfl
    | some p =>
      obtain ⟨hpmem, c, hc, hcid⟩ := find_parent_sound _ _ _ hfp
      exact absurd (hcid ▸ List.mem_map_of_mem Page.id (children_sub_forest hpmem hc)) h
  have hsibs : all_siblings_of forest startId = forest := by
    unfold all_siblings_of
    rw [hnone]
  have hidx : start_index_of forest startId = none := by
    unfold start_index_of
    rw [hsibs, List.findIdx?_eq_none_iff]
    intro x hx
    have hxm : x ∈ forestPages forest := self_mem_forestPages _ x hx
    by_cases hxe : x.id = startId
    · exact absurd (hxe ▸ List.mem_map_of_mem Page.id hxm) h
    · exact beq_false_of_ne hxe
  have hftp : find_target_pages forest startId = [] := by
    unfold find_target_pages
    rw [hidx]
  unfold create_renumbering_plan
  rw [hftp]
  rfl

/-- C9 witness: id 99 is absent from the example forest. -/
theorem plan_empty_for_absent_id_witness :
    (99 ∉ (forestPages forestC1).map Page.id) ∧
    create_renumbering_plan forestC1 99 1 = [] :=
  ⟨by decide, plan_empty_for_absent_id forestC1 99 1 (by decide)⟩

theorem dropLast_nil_iff_short {α : Type} (l : List α) :
    l.dropLast = [] ↔ l.length < 2 := by
  cases l with
  | nil => simp
  | cons x xs =>
    cases xs with
    | nil => simp
    | cons y ys => simp [List.dropLast]

/-- C4 amended: the planner's starting number is taken from the preceding
sibling only when that sibling's number parses *and* has at least two
components (when `parts[:-1]` is empty the Python falsy test on
`base_number_parts` sends the code into the fallback); otherwise — no
preceding sibling, unparsable preceding number, or single-component
preceding number — the first target sibling's own number plus `offset` is
used, and if that too is unavailable the plan is empty. -/
theorem phase1_tail_eq (prev_num : List Char) (off : Int) :
    phase1_tail prev_num off = phase1_tail_spec prev_num off := by
  unfold phase1_tail phase1_tail_spec
  cases hp : parseNat ((splitDots prev_num).getLastD []) with
  | none =>
    dsimp only
    by_cases hlen : (splitDots prev_num).length < 2
    · rw [if_pos hlen]
    · rw [if_neg hlen]
  | some last =>
    dsimp only
    by_cases hlen : (splitDots prev_num).length < 2
    · rw [if_pos hlen, if_pos ((dropLast_nil_iff_short _).mpr hlen)]
    · rw [if_neg hlen, if_neg (fun hh => hlen ((dropLast_nil_iff_short _).mp hh))]

theorem phase1_prev_eq (prev : Page) (off : Int) :
    phase1_prev prev off = phase1_prev_spec prev off := by
  unfold phase1_prev phase1_prev_spec
  cases get_page_number prev.subject with
  | none => rfl
  | some prev_num => exact phase1_tail_eq prev_num off

theorem plan_base_phase1_eq (a : List Page) (si : Option Nat) (off : Int) :
    plan_base_phase1 a si off = plan_base_spec_phase1 a si off := by
  cases si with
  | none => rfl
  | some i =>
    unfold plan_base_phase1 plan_base_spec_phase1
    dsimp only
    by_cases hi : i = 0
    · rw [if_pos hi, if_pos hi]
    · rw [if_neg hi, if_neg hi]
      cases a[i - 1]? with
      | none => rfl
      | some prev => exact phase1_prev_eq prev off

theorem plan_base_amended :
    (∀ (all_sibs target_sibs : List Page) (si : Option Nat) (off : Int),
      plan_base all_sibs target_sibs si off = plan_base_spec all_sibs target_sibs si off) ∧
    (∀ (forest : List Page) (startId : Nat) (off : Int),
      plan_base (all_siblings_of forest startId) (target_siblings_of forest startId)
        (start_index_of forest startId) off = none →
      create_renumbering_plan forest startId off = []) := by
  constructor
  · intro all_sibs target_sibs si off
    unfold plan_base plan_base_spec
    rw [plan_base_phase1_eq]
  · intro forest startId off h
    unfold create_renumbering_plan
    rw [h]
    split
    · rfl
    · rfl

/-- Forest with a single page whose title has no parsable number. -/
def forestNoNum : List Page := [Page.node 1 "Untitled".toList []]

/-- C4 amended witness: a start page with no parsable number (and no
preceding sibling) makes `plan_base` give up and the plan empty. -/
theorem plan_base_amended_witness :
    (plan_base (all_siblings_of forestNoNum 1) (target_siblings_of forestNoNum 1)
        (start_index_of forestNoNum 1) 1 = none) ∧
    create_renumbering_plan forestNoNum 1 1 = [] :=
  ⟨by decide, plan_base_amended.2 forestNoNum 1 1 (by decide)⟩

/-! Provenance of plan entries: every entry stems from a page with a
parsable number. -/

theorem cdp_entry_origin : ∀ pages : List Page, ∀ po pn : List Char,
    ∀ e ∈ create_descendant_plan pages po pn,
    ∃ q ∈ forestPages pages, e.page_id = q.id ∧
      ∃ num, get_page_number q.subject = some num := by
  refine forest_ind _ ?_ ?_
  · intro po pn e he
    cases he
  · intro i s cs ps ihc ihp po pn e he
    rw [create_descendant_plan] at he
    rcases List.mem_append.mp he with he' | he'
    · rw [cdpPage] at he'
      cases hgp : get_page_number s with
      | none => rw [hgp] at he'; cases he'
      | some onum =>
        rw [hgp] at he'
        dsimp only at he'
        by_cases hpre : (po ++ ['.']).isPrefixOf onum
        · rw [if_pos hpre] at he'
          rcases List.mem_append.mp he' with he2 | he2
          · by_cases hne : replace_prefix onum po pn ≠ onum
            · rw [if_pos hne] at he2
              have hee := List.mem_singleton.mp he2
              refine ⟨Page.node i s cs, ?_, ?_, onum, hgp⟩
              · rw [forestPages_cons, subtreePages_eq]
                exact List.mem_append_left _ (List.mem_cons_self _ _)
              · rw [hee]
                rfl
            · rw [if_neg hne] at he2
              cases he2
          · obtain ⟨q, hq, hrest⟩ := ihc po pn e he2
            refine ⟨q, ?_, hrest⟩
            rw [forestPages_cons, subtreePages_eq]
            exact List.mem_append_left _ (List.mem_cons_of_mem _ hq)
        · rw [if_neg hpre] at he'
          cases he'
    · obtain ⟨q, hq, hrest⟩ := ihp po pn e he'
      refine ⟨q, ?_, hrest⟩
      rw [forestPages_cons]
      exact List.mem_append_right _ hq

theorem fold_entry_origin (base : List (List Char)) : ∀ l : List Page, ∀ cur : Int,
    ∀ acc : List PlanEntry, ∀ e ∈ (l.foldl (sibling_step base) (cur, acc)).2,
    e ∈ acc ∨ ∃ q ∈ forestPages l, e.page_id = q.id ∧
      ∃ num, get_page_number q.subject = some num := by
  intro l
  induction l with
  | nil => intro cur acc e he; exact Or.inl he
  | cons p ps ih =>
    intro cur acc e he
    rw [List.foldl_cons] at he
    cases hgp : get_page_number p.subject with
    | none =>
      have hstep : sibling_step base (cur, acc) p = (cur, acc) := by
        simp only [sibling_step, hgp]
      rw [hstep] at he
      rcases ih cur acc e he with h | ⟨q, hq, hrest⟩
      · exact Or.inl h
      · refine Or.inr ⟨q, ?_, hrest⟩
        rw [forestPages_cons]
        exact List.mem_append_right _ hq
    | some onum =>
      have hstep : sibling_step base (cur, acc) p =
          (cur + 1,
            (if joinDots (base ++ [intChars cur]) ≠ onum then
              acc ++ [⟨p.id, p.subject, onum, joinDots (base ++ [intChars cur])⟩]
             else acc)
            ++ create_descendant_plan p.children onum (joinDots (base ++ [intChars cur]))) := by
        simp only [sibling_step, hgp]
      rw [hstep] at he
      rcases ih _ _ e he with h | ⟨q, hq, hrest⟩
      · rcases List.mem_append.mp h with h1 | h1
        · by_cases hne : joinDots (base ++ [intChars cur]) ≠ onum
          · rw [if_pos hne] at h1
            rcases List.mem_append.mp h1 with h2 | h2
            · exact Or.inl h2
            · refine Or.inr ⟨p, ?_, ?_, onum, hgp⟩
              · rw [forestPages_cons, subtreePages_eq]
                exact List.mem_append_left _ (List.mem_cons_self _ _)
              · rw [List.mem_singleton.mp h2]
          · rw [if_neg hne] at h1
            exact Or.inl h1
        · obtain ⟨q, hq, hrest⟩ := cdp_entry_origin p.children _ _ e h1
          refine Or.inr ⟨q, ?_, hrest⟩
          rw [forestPages_cons, subtreePages_eq]
          exact List.mem_append_left _ (List.mem_cons_of_mem _ hq)
      · refine Or.inr ⟨q, ?_, hrest⟩
        rw [forestPages_cons]
        exact List.mem_append_right _ hq

theorem target_siblings_sub (forest : List Page) (startId : Nat) :
    ∀ p ∈ target_siblings_of forest startId, p ∈ forestPages forest := by
  intro p hp
  have hp' : p ∈ all_siblings_of forest startId := List.mem_of_mem_filter hp
  unfold all_siblings_of at hp'
  cases hfp : find_parent forest startId with
  | none =>
    rw [hfp] at hp'
    exact self_mem_forestPages _ p hp'
  | some parent =>
    rw [hfp] at hp'
    obtain ⟨hpar, -⟩ := find_parent_sound _ _ _ hfp
    exact children_sub_forest hpar hp'

theorem crp_entry_origin (forest : List Page) (startId : Nat) (offset : Int) :
    ∀ e ∈ create_renumbering_plan forest startId offset,
    ∃ q ∈ forestPages forest, e.page_id = q.id ∧
      ∃ num, get_page_number q.subject = some num := by
  intro e he
  unfold create_renumbering_plan at he
  by_cases hemp : (find_target_pages forest startId).isEmpty
  · rw [if_pos hemp] at he
    cases he
  · rw [if_neg hemp] at he
    cases hpb : plan_base (all_siblings_of forest startId) (target_siblings_of forest startId)
        (start_index_of forest startId) offset with
    | none =>
      rw [hpb] at he
      cases he
    | some pr =>
      rw [hpb] at he
      obtain ⟨base, start_last⟩ := pr
      rcases fold_entry_origin base (target_siblings_of forest startId) start_last [] e he
        with h | ⟨q, hq, hrest⟩
      · cases h
      · obtain ⟨s, hs, hqs⟩ := (mem_forestPages_iff q _).mp hq
        exact ⟨q, subtree_closed forest s (target_siblings_sub forest startId s hs) q hqs, hrest⟩

/-- C5: a sibling whose title has no parsable number is skipped without
consuming a slot — the loop state (counter and plan) is untouched, so the
next numbered sibling receives the very value the unnumbered one would
have received — and (in a forest with unique ids) no plan entry ever
carries the unnumbered page's id. -/
theorem unnumbered_sibling_skipped :
    (∀ (base : List (List Char)) (cur : Int) (acc : List PlanEntry) (u : Page),
      get_page_number u.subject = none → sibling_step base (cur, acc) u = (cur, acc)) ∧
    (∀ (forest : List Page) (startId : Nat) (offset : Int) (u : Page),
      ((forestPages forest).map Page.id).Nodup → u ∈ forestPages forest →
      get_page_number u.subject = none →
      ∀ e ∈ create_renumbering_plan forest startId offset, e.page_id ≠ u.id) := by
  constructor
  · intro base cur acc u hu
    simp only [sibling_step, hu]
  · intro forest startId offset u hnd hu hnum e he hid
    obtain ⟨q, hq, hpid, num, hqnum⟩ := crp_entry_origin forest startId offset e he
    have hqu : q = u :=
      List.inj_on_of_nodup_map hnd hq hu (by rw [← hpid, hid])
    rw [hqu, hnum] at hqnum
    cases hqnum

/-- Forest for the C5 witness: an unnumbered page before a numbered one. -/
def forestC5 : List Page :=
  [Page.node 1 "Untitled".toList [], Page.node 2 "5.2 A".toList []]

/-- C5 witness: the unnumbered page 1 leaves the loop state unchanged and
never appears in the plan computed for start page 2. -/
theorem unnumbered_sibling_skipped_witness :
    (get_page_number (Page.node 1 "Untitled".toList []).subject = none) ∧
    (((forestPages forestC5).map Page.id).Nodup) ∧
    sibling_step [] (3, []) (Page.node 1 "Untitled".toList []) = (3, []) ∧
    (∀ e ∈ create_renumbering_plan forestC5 2 1,
      e.page_id ≠ (Page.node 1 "Untitled".toList []).id) :=
  ⟨by decide, by decide,
   unnumbered_sibling_skipped.1 [] 3 [] (Page.node 1 "Untitled".toList []) (by decide),
   unnumbered_sibling_skipped.2 forestC5 2 1 (Page.node 1 "Untitled".toList [])
     (by decide) (List.mem_cons_self _ _) (by decide)⟩

/-! C6: which descendants get plan entries. -/

theorem isPrefixOf_of_append_left {a b x : List Char} (h : (a ++ b).isPrefixOf x = true) :
    a.isPrefixOf x = true :=
  List.isPrefixOf_iff_prefix.mpr ((List.prefix_append a b).trans (List.isPrefixOf_iff_prefix.mp h))

theorem replace_prefix_ne (num po pn : List Char) (hne : po ≠ pn)
    (hpre : po.isPrefixOf num = true) : replace_prefix num po pn ≠ num := by
  unfold replace_prefix
  rw [if_pos hpre]
  intro h
  obtain ⟨t, ht⟩ := List.isPrefixOf_iff_prefix.mp hpre
  rw [← ht, List.drop_left] at h
  exact hne (List.append_cancel_right h).symm

/-- A page reachable from `pages` through a chain of intermediate pages
that all carry a parsable number prefixed by `po + "."` (the start of the
chain is a member of `pages` itself; intermediate nodes must match, the
endpoint need not). -/
inductive MatchedPath (po : List Char) : List Page → Page → Prop where
  | here : ∀ (p : Page) (pages : List Page), p ∈ pages → MatchedPath po pages p
  | via : ∀ (p q : Page) (pages : List Page), p ∈ pages →
      (∃ num, get_page_number p.subject = some num ∧ (po ++ ['.']).isPrefixOf num = true) →
      MatchedPath po p.children q → MatchedPath po pages q

theorem matchedPath_weaken (po : List Char) (r : Page) : ∀ pages q,
    MatchedPath po pages q → MatchedPath po (r :: pages) q
  | _, _, .here p pages hp => .here p _ (List.mem_cons_of_mem _ hp)
  | _, _, .via p q pages hp hm hpath => .via p q _ (List.mem_cons_of_mem _ hp) hm hpath

theorem matchedPath_mem (po : List Char) : ∀ pages q,
    MatchedPath po pages q → q ∈ forestPages pages := by
  intro pages q h
  induction h with
  | here p pages hp => exact self_mem_forestPages _ p hp
  | via p q pages hp hm hpath ih =>
    refine subtree_closed _ p (self_mem_forestPages _ p hp) q ?_
    rw [subtreePages_eq]
    exact List.mem_cons_of_mem _ ih

theorem cdpPage_to_cdp (po pn : List Char) : ∀ pages : List Page, ∀ q ∈ pages,
    ∀ e ∈ cdpPage q po pn, e ∈ create_descendant_plan pages po pn := by
  intro pages
  induction pages with
  | nil => intro q hq; cases hq
  | cons p ps ih =>
    intro q hq e he
    rw [create_descendant_plan]
    rcases List.mem_cons.mp hq with h | h
    · exact List.mem_append_left _ (h ▸ he)
    · exact List.mem_append_right _ (ih q h e he)

theorem cdp_includes (po pn : List Char) (hne : po ≠ pn) : ∀ pages q,
    MatchedPath po pages q →
    ∀ num, get_page_number q.subject = some num → (po ++ ['.']).isPrefixOf num = true →
    (⟨q.id, q.subject, num, replace_prefix num po pn⟩ : PlanEntry) ∈
      create_descendant_plan pages po pn := by
  intro pages q hpath
  induction hpath with
  | here p pages hp =>
    intro num hnum hpre
    refine cdpPage_to_cdp po pn pages p hp _ ?_
    cases p with
    | node i s cs =>
      have hnum' : get_page_number s = some num := hnum
      rw [cdpPage, hnum']
      dsimp only
      rw [if_pos hpre]
      refine List.mem_append_left _ ?_
      rw [if_pos (replace_prefix_ne num po pn hne (isPrefixOf_of_append_left hpre))]
      exact List.mem_singleton.mpr rfl
  | via p q pages hp hm hpath ih =>
    intro num hnum hpre
    have he := ih num hnum hpre
    refine cdpPage_to_cdp po pn pages p hp _ ?_
    obtain ⟨pnum, hpnum, hppre⟩ := hm
    cases p with
    | node i s cs =>
      have hpnum' : get_page_number s = some pnum := hpnum
      rw [cdpPage, hpnum']
      dsimp only
      rw [if_pos hppre]
      exact List.mem_append_right _ he

theorem cdp_origin_path : ∀ pages : List Page, ∀ po pn : List Char,
    ∀ e ∈ create_descendant_plan pages po pn,
    ∃ q, MatchedPath po pages q ∧ e.page_id = q.id := by
  refine forest_ind _ ?_ ?_
  · intro po pn e he
    cases he
  · intro i s cs ps ihc ihp po pn e he
    rw [create_descendant_plan] at he
    rcases List.mem_append.mp he with he' | he'
    · rw [cdpPage] at he'
      cases hgp : get_page_number s with
      | none => rw [hgp] at he'; cases he'
      | some onum =>
        rw [hgp] at he'
        dsimp only at he'
        by_cases hpre : (po ++ ['.']).isPrefixOf onum
        · rw [if_pos hpre] at he'
          rcases List.mem_append.mp he' with he2 | he2
          · by_cases hne2 : replace_prefix onum po pn ≠ onum
            · rw [if_pos hne2] at he2
              refine ⟨Page.node i s cs, .here _ _ (List.mem_cons_self _ _), ?_⟩
              rw [List.mem_singleton.mp he2]
              rfl
            · rw [if_neg hne2] at he2
              cases he2
          · obtain ⟨q, hqpath, hqid⟩ := ihc po pn e he2
            exact ⟨q, .via (Page.node i s cs) q _ (List.mem_cons_self _ _)
              ⟨onum, hgp, hpre⟩ hqpath, hqid⟩
        · rw [if_neg hpre] at he'
          cases he'
    · obtain ⟨q, hqpath, hqid⟩ := ihp po pn e he'
      exact ⟨q, matchedPath_weaken po _ _ _ hqpath, hqid⟩

/-- C6 amended: for a renumbered sibling with old number O and new number
N, the plan contains an entry for every descendant whose own parsed
number starts with `O + "."` *and* all of whose intermediate ancestors
(between the sibling and it) also have parsable numbers starting with
`O + "."` — the fixed (O, N) pair is used at every depth; conversely (for
unique ids) a descendant below an ancestor that fails the prefix test is
never visited and receives no entry. -/
theorem descendant_plan_amended :
    (∀ (po pn : List Char) (pages : List Page) (q : Page) (num : List Char),
      po ≠ pn → MatchedPath po pages q → get_page_number q.subject = some num →
      (po ++ ['.']).isPrefixOf num = true →
      (⟨q.id, q.subject, num, replace_prefix num po pn⟩ : PlanEntry) ∈
        create_descendant_plan pages po pn) ∧
    (∀ (po pn : List Char) (pages : List Page) (u : Page),
      ((forestPages pages).map Page.id).Nodup → u ∈ forestPages pages →
      ¬ MatchedPath po pages u →
      ∀ e ∈ create_descendant_plan pages po pn, e.page_id ≠ u.id) := by
  constructor
  · intro po pn pages q num hne hpath hnum hpre
    exact cdp_includes po pn hne pages q hpath num hnum hpre
  · intro po pn pages u hnd hu hnp e he hid
    obtain ⟨q, hqpath, hqid⟩ := cdp_origin_path pages po pn e he
    have hq : q ∈ forestPages pages := matchedPath_mem po pages q hqpath
    have hqu : q = u := List.inj_on_of_nodup_map hnd hq hu (by rw [← hqid, hid])
    exact hnp (hqu ▸ hqpath)

/-- C6 amended witness: a grandchild below a matching intermediate gets
its entry; a grandchild below an unnumbered intermediate never does. -/
theorem descendant_plan_amended_witness :
    ((⟨6, "5.2.1.4 Leaf".toList, "5.2.1.4".toList, "5.3.1.4".toList⟩ : PlanEntry) ∈
      create_descendant_plan
        [Page.node 5 "5.2.1 Mid".toList [Page.node 6 "5.2.1.4 Leaf".toList []]]
        "5.2".toList "5.3".toList) ∧
    (∀ e ∈ create_descendant_plan
        [Page.node 3 "Untitled".toList [Page.node 4 "5.2.1.1 Deep".toList []]]
        "5.2".toList "5.3".toList,
      e.page_id ≠ 4) := by
  constructor
  · exact descendant_plan_amended.1 "5.2".toList "5.3".toList
      [Page.node 5 "5.2.1 Mid".toList [Page.node 6 "5.2.1.4 Leaf".toList []]]
      (Page.node 6 "5.2.1.4 Leaf".toList []) "5.2.1.4".toList
      (by decide)
      (.via (Page.node 5 "5.2.1 Mid".toList [Page.node 6 "5.2.1.4 Leaf".toList []])
        (Page.node 6 "5.2.1.4 Leaf".toList []) _ (List.mem_cons_self _ _)
        ⟨"5.2.1".toList, by decide, by decide⟩
        (.here _ _ (List.mem_cons_self _ _)))
      (by decide) (by decide)
  · intro e he hid
    refine descendant_plan_amended.2 "5.2".toList "5.3".toList
      [Page.node 3 "Untitled".toList [Page.node 4 "5.2.1.1 Deep".toList []]]
      (Page.node 4 "5.2.1.1 Deep".toList []) (by decide)
      (List.mem_cons_of_mem _ (List.mem_cons_self _ _)) ?_ e he hid
    intro hpath
    cases hpath with
    | here _ _ hp =>
      rcases List.mem_cons.mp hp with h | h
      · simp at h
      · cases h
    | via p _ _ hp hm _ =>
      rcases List.mem_cons.mp hp with h | h
      · subst h
        obtain ⟨num, hnum, -⟩ := hm
        have hn : get_page_number (Page.node 3 "Untitled".toList
            [Page.node 4 "5.2.1.1 Deep".toList []]).subject = none := by decide
        rw [hn] at hnum
        cases hnum
      · cases h

theorem forestPages_eq_flatten : ∀ ps : List Page,
    forestPages ps = (ps.map subtreePages).flatten := by
  intro ps
  induction ps with
  | nil => rfl
  | cons p ps ih => rw [forestPages_cons, List.map_cons, List.flatten_cons, ih]

/-- C3: for a forest with unique ids containing the start id, the start
page sits at some index `i` of its sibling list; `find_target_pages`
contains the start page itself, contains no sibling of index strictly
below `i`, and every collected page lies in the subtree of the start page
or of a later sibling (so nothing outside those subtrees — in particular
no later chapter at a higher level — is ever included). -/
theorem collect_targets_bounds (forest : List Page) (startId : Nat)
    (hnd : ((forestPages forest).map Page.id).Nodup)
    (hmem : startId ∈ (forestPages forest).map Page.id) :
    ∃ i, ∃ hi : i < (all_siblings_of forest startId).length,
      ((all_siblings_of forest startId).get ⟨i, hi⟩).id = startId ∧
      (all_siblings_of forest startId).get ⟨i, hi⟩ ∈ find_target_pages forest startId ∧
      (∀ j, ∀ hj : j < (all_siblings_of forest startId).length, j < i →
        (all_siblings_of forest startId).get ⟨j, hj⟩ ∉ find_target_pages forest startId) ∧
      (∀ p ∈ find_target_pages forest startId,
        ∃ k, ∃ hk : k < (all_siblings_of forest startId).length, i ≤ k ∧
          p ∈ subtreePages ((all_siblings_of forest startId).get ⟨k, hk⟩)) := by
  have hnodup_sibs : ((forestPages (all_siblings_of forest startId)).map Page.id).Nodup := by
    unfold all_siblings_of
    cases hfp : find_parent forest startId with
    | none => exact hnd
    | some parent =>
      obtain ⟨hpar, -⟩ := find_parent_sound _ _ _ hfp
      have hmapinf := ( subtree_infix forest parent hpar).map Page.id
      have hsub : ((subtreePages parent).map Page.id).Nodup := hmapinf.sublist.nodup hnd
      rw [subtreePages_eq, List.map_cons] at hsub
      exact (List.nodup_cons.mp hsub).2
  have hstart_mem : ∃ x ∈ all_siblings_of forest startId, x.id = startId := by
    unfold all_siblings_of
    cases hfp : find_parent forest startId with
    | some parent =>
      obtain ⟨-, c, hc, hcid⟩ := find_parent_sound _ _ _ hfp
      exact ⟨c, hc, hcid⟩
    | none =>
      obtain ⟨q, hq, hqid⟩ := List.mem_map.mp hmem
      rcases root_or_child forest q hq with h | ⟨r, hr, hqr⟩
      · exact ⟨q, h, hqid⟩
      · exact absurd hqid (find_parent_none forest startId hfp r hr q hqr)
  obtain ⟨x, hx, hxid⟩ := hstart_mem
  have hsome : ∃ i, start_index_of forest startId = some i := by
    refine Option.isSome_iff_exists.mp ?_
    unfold start_index_of
    rw [List.findIdx?_isSome, List.any_eq_true]
    exact ⟨x, hx, beq_iff_eq.mpr hxid⟩
  obtain ⟨i, hi_eq⟩ := hsome
  have hi_eq' : (all_siblings_of forest startId).findIdx? (fun p => p.id == startId)
      = some i := hi_eq
  obtain ⟨hi_lt, hpi, hprevi⟩ := List.findIdx?_eq_some_iff_getElem.mp hi_eq'
  have hres : find_target_pages forest startId =
      (((all_siblings_of forest startId).drop i).map subtreePages).flatten := by
    unfold find_target_pages
    rw [hi_eq]
  have hsubset : ∀ p ∈ find_target_pages forest startId,
      ∃ k, ∃ hk : k < (all_siblings_of forest startId).length, i ≤ k ∧
        p ∈ subtreePages ((all_siblings_of forest startId).get ⟨k, hk⟩) := by
    intro p hp
    rw [hres] at hp
    obtain ⟨L, hL, hpL⟩ := List.mem_flatten.mp hp
    obtain ⟨s, hs, hsL⟩ := List.mem_map.mp hL
    obtain ⟨j, hj, hsj⟩ := List.mem_iff_getElem.mp hs
    have hlen := (all_siblings_of forest startId).length_drop i
    refine ⟨i + j, by omega, Nat.le_add_right i j, ?_⟩
    have hb : i + j < (all_siblings_of forest startId).length := by omega
    rw [List.get_eq_getElem]
    have h9 : ((all_siblings_of forest startId).drop i)[j] =
        (all_siblings_of forest startId)[i + j] := by
      rw [List.getElem_drop]
    rw [← h9, hsj, hsL]
    exact hpL
  refine ⟨i, hi_lt, ?_, ?_, ?_, hsubset⟩
  · rw [List.get_eq_getElem]
    exact beq_iff_eq.mp hpi
  · rw [hres]
    refine List.mem_flatten.mpr
      ⟨subtreePages ((all_siblings_of forest startId).get ⟨i, hi_lt⟩), ?_, ?_⟩
    · refine List.mem_map_of_mem subtreePages ?_
      rw [List.drop_eq_getElem_cons hi_lt, List.get_eq_getElem]
      exact List.mem_cons_self _ _
    · rw [subtreePages_eq]
      exact List.mem_cons_self _ _
  · intro j hj hji hmemres
    obtain ⟨k, hk, hik, hmemsub⟩ := hsubset _ hmemres
    have hjk : j < k := Nat.lt_of_lt_of_le hji hik
    have hflat : (forestPages (all_siblings_of forest startId)).map Page.id =
        ((all_siblings_of forest startId).map
          (fun s => (subtreePages s).map Page.id)).flatten := by
      rw [forestPages_eq_flatten, List.map_flatten, List.map_map]
      rfl
    have hnd2 := hnodup_sibs
    rw [hflat] at hnd2
    have hpd := (List.nodup_flatten.mp hnd2).2
    have hlenb : ((all_siblings_of forest startId).map
        (fun s => (subtreePages s).map Page.id)).length =
        (all_siblings_of forest startId).length := List.length_map _ _
    have hdis := List.pairwise_iff_get.mp hpd ⟨j, by omega⟩ ⟨k, by omega⟩ hjk
    rw [List.get_eq_getElem, List.get_eq_getElem] at hdis
    simp only [List.getElem_map] at hdis
    refine hdis (a := ((all_siblings_of forest startId).get ⟨j, hj⟩).id) ?_ ?_
    · refine List.mem_map_of_mem Page.id ?_
      rw [subtreePages_eq, List.get_eq_getElem]
      exact List.mem_cons_self _ _
    · refine List.mem_map_of_mem Page.id ?_
      rw [List.get_eq_getElem] at hmemsub
      exact hmemsub

/-- C3 witness at the example forest, start id 2. -/
theorem collect_targets_bounds_witness :
    ((((forestPages forestC1).map Page.id).Nodup) ∧
      2 ∈ (forestPages forestC1).map Page.id) ∧
    (∃ i, ∃ hi : i < (all_siblings_of forestC1 2).length,
      ((all_siblings_of forestC1 2).get ⟨i, hi⟩).id = 2 ∧
      (all_siblings_of forestC1 2).get ⟨i, hi⟩ ∈ find_target_pages forestC1 2 ∧
      (∀ j, ∀ hj : j < (all_siblings_of forestC1 2).length, j < i →
        (all_siblings_of forestC1 2).get ⟨j, hj⟩ ∉ find_target_pages forestC1 2) ∧
      (∀ p ∈ find_target_pages forestC1 2,
        ∃ k, ∃ hk : k < (all_siblings_of forestC1 2).length, i ≤ k ∧
          p ∈ subtreePages ((all_siblings_of forestC1 2).get ⟨k, hk⟩))) :=
  ⟨⟨by decide, by decide⟩, collect_targets_bounds forestC1 2 (by decide) (by decide)⟩

/-! Character-run lemmas for the heading scanners. -/

theorem tw_all {p : Char → Bool} : ∀ l : List Char, (∀ c ∈ l, p c = true) →
    l.takeWhile p = l := by
  intro l
  induction l with
  | nil => intro _; rfl
  | cons c cs ih =>
    intro h
    rw [List.takeWhile_cons, h c (List.mem_cons_self _ _)]
    simp only [if_true]
    rw [ih (fun x hx => h x (List.mem_cons_of_mem _ hx))]

theorem tw_mem {p : Char → Bool} : ∀ l : List Char, ∀ c ∈ l.takeWhile p, p c = true := by
  intro l
  induction l with
  | nil => intro c hc; cases hc
  | cons a as ih =>
    intro c hc
    rw [List.takeWhile_cons] at hc
    by_cases ha : p a = true
    · rw [ha] at hc
      simp only [if_true] at hc
      rcases List.mem_cons.mp hc with h | h
      · exact h ▸ ha
      · exact ih c h
    · rw [Bool.eq_false_iff.mpr ha] at hc
      simp only [Bool.false_eq_true, if_false] at hc
      cases hc

theorem tw_append_newline {p : Char → Bool} (hnl : p '\n' = false) :
    ∀ (L r : List Char), ((L ++ '\n' :: r).takeWhile p) = L.takeWhile p := by
  intro L r
  induction L with
  | nil =>
    rw [List.nil_append, List.takeWhile_cons, hnl]
    rfl
  | cons c cs ih =>
    rw [List.cons_append, List.takeWhile_cons, List.takeWhile_cons]
    by_cases hc : p c = true
    · rw [hc]
      simp only [if_true]
      rw [ih]
    · rw [Bool.eq_false_iff.mpr hc]
      rfl

theorem tw_append_stop {p : Char → Bool} : ∀ (a b : List Char),
    (∃ c ∈ a, p c = false) → ((a ++ b).takeWhile p) = a.takeWhile p := by
  intro a b
  induction a with
  | nil => intro ⟨c, hc, _⟩; cases hc
  | cons x xs ih =>
    intro ⟨c, hc, hcp⟩
    rw [List.cons_append, List.takeWhile_cons, List.takeWhile_cons]
    by_cases hx : p x = true
    · rw [hx]
      simp only [if_true]
      rcases List.mem_cons.mp hc with h | h
      · rw [h] at hcp
        rw [hcp] at hx
        exact absurd hx (by decide)
      · rw [ih ⟨c, h, hcp⟩]
    · rw [Bool.eq_false_iff.mpr hx]
      rfl

theorem runs_exact {p : Char → Bool} : ∀ (u v : List Char), (∀ c ∈ u, p c = true) →
    (∀ c, v.head? = some c → p c = false) → ((u ++ v).takeWhile p) = u := by
  intro u v hu hv
  induction u with
  | nil =>
    cases v with
    | nil => rfl
    | cons c cs =>
      rw [List.nil_append, List.takeWhile_cons, hv c rfl]
      rfl
  | cons x xs ih =>
    rw [List.cons_append, List.takeWhile_cons, hu x (List.mem_cons_self _ _)]
    simp only [if_true]
    rw [ih (fun c hc => hu c (List.mem_cons_of_mem _ hc))]

theorem boundaryB_append_newline (x b : List Char) :
    boundaryB (x ++ '\n' :: b) = boundaryB x := by
  cases x with
  | nil => simp [boundaryB]
  | cons c cs => rfl

theorem isPrefixOf_append_newline {a : List Char} (b r : List Char)
    (hnl : '\n' ∉ a) : a.isPrefixOf (b ++ '\n' :: r) = a.isPrefixOf b := by
  induction a generalizing b with
  | nil => rw [List.isPrefixOf_nil_left, List.isPrefixOf_nil_left]
  | cons c cs ih =>
    cases b with
    | nil =>
      rw [List.nil_append]
      show (c == '\n' && cs.isPrefixOf r) = false
      have : (c == '\n') = false :=
        beq_false_of_ne (fun h => hnl (h ▸ List.mem_cons_self _ _))
      rw [this, Bool.false_and]
    | cons d ds =>
      rw [List.cons_append]
      show (c == d && cs.isPrefixOf (ds ++ '\n' :: r)) = (c == d && cs.isPrefixOf ds)
      rw [ih ds (fun h => hnl (List.mem_cons_of_mem _ h))]

theorem prefix_recomp {a x : List Char} (h : a.isPrefixOf x = true) :
    a ++ x.drop a.length = x := by
  obtain ⟨t, ht⟩ := List.isPrefixOf_iff_prefix.mp h
  rw [← ht, List.drop_left]

theorem drop_len_takeWhile {p : Char → Bool} : ∀ l : List Char,
    l.drop (l.takeWhile p).length = l.dropWhile p := by
  intro l
  induction l with
  | nil => rfl
  | cons c cs ih =>
    rw [List.takeWhile_cons, List.dropWhile_cons]
    by_cases hc : p c = true
    · rw [hc]
      simp only [if_true, List.length_cons, List.drop_succ_cons]
      exact ih
    · rw [Bool.eq_false_iff.mpr hc]
      simp only [Bool.false_eq_true, if_false, List.length_nil, List.drop_zero]

theorem dropWhile_head_false {p : Char → Bool} : ∀ (l : List Char) (c : Char) (r : List Char),
    l.dropWhile p = c :: r → p c = false := by
  intro l
  induction l with
  | nil => intro c r h; cases h
  | cons a as ih =>
    intro c r h
    rw [List.dropWhile_cons] at h
    by_cases ha : p a = true
    · rw [ha] at h
      simp only [if_true] at h
      exact ih c r h
    · rw [Bool.eq_false_iff.mpr ha] at h
      simp only [Bool.false_eq_true, if_false] at h
      cases h
      exact Bool.eq_false_iff.mpr ha

theorem tw_drop_decomp {p : Char → Bool} (l : List Char) :
    l.takeWhile p ++ l.drop (l.takeWhile p).length = l := by
  rw [drop_len_takeWhile]
  exact List.takeWhile_append_dropWhile p l

/-! Character classes and facts about valid dotted numbers. -/

theorem space_cases {c : Char} (h : pyIsSpace c = true) :
    c = ' ' ∨ c = '\t' ∨ c = '\n' ∨ c = '\r' ∨ c = '\x0B' ∨ c = '\x0C' := by
  simp only [pyIsSpace, Bool.or_eq_true, decide_eq_true_eq] at h
  tauto

theorem digit_not_space {c : Char} (h : c.isDigit = true) : pyIsSpace c = false := by
  cases hsp : pyIsSpace c
  · rfl
  · exfalso
    rcases space_cases hsp with h1 | h1 | h1 | h1 | h1 | h1 <;>
      (subst h1; exact absurd h (by decide))

theorem digit_ne_hash {c : Char} (h : c.isDigit = true) : c ≠ '#' := by
  intro heq
  subst heq
  exact absurd h (by decide)

theorem space_ne_hash {c : Char} (h : pyIsSpace c = true) : c ≠ '#' := by
  intro heq
  rcases space_cases h with h1 | h1 | h1 | h1 | h1 | h1 <;>
    (rw [heq] at h1; exact absurd h1 (by decide))

theorem dotted_not_newline {c : Char} (h : c.isDigit = true ∨ c = '.') : c ≠ '\n' := by
  intro heq
  subst heq
  rcases h with h | h
  · exact absurd h (by decide)
  · exact absurd h (by decide)

theorem numMatch_cons (c : Char) (cs : List Char) :
    numMatch (c :: cs) =
      if c.isDigit then c :: numMatch cs
      else if c = '.' then
        match cs with
        | [] => []
        | d :: _ => if d.isDigit then '.' :: numMatch cs else []
      else [] := by
  rw [numMatch.eq_def]

theorem numMatch_chars : ∀ l : List Char, ∀ x ∈ numMatch l,
    x.isDigit = true ∨ x = '.' := by
  intro l
  induction l with
  | nil => intro x hx; cases hx
  | cons c cs ih =>
    intro x hx
    rw [numMatch_cons] at hx
    by_cases hc : c.isDigit = true
    · rw [if_pos hc] at hx
      rcases List.mem_cons.mp hx with h | h
      · exact Or.inl (h ▸ hc)
      · exact ih x h
    · rw [if_neg hc] at hx
      by_cases hd : c = '.'
      · rw [if_pos hd] at hx
        cases cs with
        | nil => cases hx
        | cons d ds =>
          dsimp only at hx
          by_cases hdd : d.isDigit = true
          · rw [if_pos hdd] at hx
            rcases List.mem_cons.mp hx with h | h
            · exact Or.inr h
            · exact ih x h
          · rw [if_neg hdd] at hx
            cases hx
      · rw [if_neg hd] at hx
        cases hx

theorem valid_head : ∀ cs : List Char, validNumberB cs = true →
    ∃ c cs', cs = c :: cs' ∧ c.isDigit = true := by
  intro cs hval
  have h : get_page_number cs = some cs := of_decide_eq_true hval
  rw [get_page_number] at h
  cases hstrip : pyStrip cs with
  | nil => rw [hstrip] at h; cases h
  | cons c cs'' =>
    rw [hstrip] at h
    dsimp only at h
    by_cases hc : c.isDigit = true
    · rw [if_pos hc] at h
      injection h with h'
      rw [numMatch_cons, if_pos hc] at h'
      exact ⟨c, numMatch cs'', h'.symm, hc⟩
    · rw [if_neg hc] at h
      cases h

theorem valid_chars : ∀ cs : List Char, validNumberB cs = true →
    ∀ x ∈ cs, x.isDigit = true ∨ x = '.' := by
  intro cs hval x hx
  have h : get_page_number cs = some cs := of_decide_eq_true hval
  rw [get_page_number] at h
  cases hstrip : pyStrip cs with
  | nil => rw [hstrip] at h; cases h
  | cons c cs'' =>
    rw [hstrip] at h
    dsimp only at h
    by_cases hc : c.isDigit = true
    · rw [if_pos hc] at h
      injection h with h'
      rw [← h'] at hx
      exact numMatch_chars _ x hx
    · rw [if_neg hc] at h
      cases h

theorem valid_ne_nil {cs : List Char} (hval : validNumberB cs = true) : cs ≠ [] := by
  obtain ⟨c, cs', hcs, -⟩ := valid_head cs hval
  rw [hcs]
  exact List.cons_ne_nil c cs'

theorem valid_no_newline {cs : List Char} (hval : validNumberB cs = true) : '\n' ∉ cs :=
  fun h => dotted_not_newline (valid_chars cs hval '\n' h) rfl

theorem valid_head_digit {cs : List Char} (hval : validNumberB cs = true) :
    ∀ c, cs.head? = some c → c.isDigit = true := by
  obtain ⟨c, cs', hcs, hc⟩ := valid_head cs hval
  intro d hd
  rw [hcs] at hd
  injection hd with hd'
  exact hd' ▸ hc

theorem valid_last_digit : ∀ cs : List Char, validNumberB cs = true →
    ∀ c, cs.getLast? = some c → c.isDigit = true := by
  intro cs hval
  have h : get_page_number cs = some cs := of_decide_eq_true hval
  rw [get_page_number] at h
  cases hstrip : pyStrip cs with
  | nil => rw [hstrip] at h; cases h
  | cons c0 cs'' =>
    rw [hstrip] at h
    dsimp only at h
    by_cases hc : c0.isDigit = true
    · rw [if_pos hc] at h
      injection h with h'
      intro c hcl
      rw [← h'] at hcl
      clear h' hstrip hval
      have key : ∀ l : List Char, ∀ d : Char, d.isDigit = true →
          ∀ x, (d :: numMatch l).getLast? = some x → x.isDigit = true := by
        intro l
        induction l with
        | nil =>
          intro d hd x hx
          injection hx with hx'
          exact hx' ▸ hd
        | cons a as ih =>
          intro d hd x hx
          rw [numMatch_cons] at hx
          by_cases ha : a.isDigit = true
          · rw [if_pos ha] at hx
            rw [List.getLast?_cons_cons] at hx
            exact ih a ha x hx
          · rw [if_neg ha] at hx
            by_cases hdot : a = '.'
            · rw [if_pos hdot] at hx
              cases as with
              | nil =>
                injection hx with hx'
                exact hx' ▸ hd
              | cons b bs =>
                dsimp only at hx
                by_cases hb : b.isDigit = true
                · rw [if_pos hb] at hx
                  rw [List.getLast?_cons_cons] at hx
                  have hnm : numMatch (b :: bs) = b :: numMatch bs := by
                    rw [numMatch_cons, if_pos hb]
                  rw [hnm, List.getLast?_cons_cons] at hx
                  exact ih b hb x (by rw [hnm, List.getLast?_cons_cons]; exact hx)
                · rw [if_neg hb] at hx
                  injection hx with hx'
                  exact hx' ▸ hd
            · rw [if_neg hdot] at hx
              injection hx with hx'
              exact hx' ▸ hd
      rw [numMatch_cons, if_pos hc] at hcl
      exact key cs'' c0 hc c hcl
    · rw [if_neg hc] at h
      cases h

/-! Fuel-independence and unfolding equations for the scanners. -/

theorem hasMatchF_fuel (old : List Char) : ∀ f1 f2 cs, cs.length < f1 → cs.length < f2 →
    hasMatchF old f1 cs = hasMatchF old f2 cs := by
  intro f1
  induction f1 with
  | zero => intro f2 cs h1 h2; exact absurd h1 (Nat.not_lt_zero _)
  | succ f1 ih =>
    intro f2 cs h1 h2
    cases f2 with
    | zero => exact absurd h2 (Nat.not_lt_zero _)
    | succ f2 =>
      rw [hasMatchF, hasMatchF]
      congr 1
      cases hdrop : cs.drop (lineOf cs).length with
      | nil => rfl
      | cons x rest2 =>
        dsimp only
        have h3 := congrArg List.length hdrop
        simp only [List.length_drop, List.length_cons] at h3
        exact ih f2 rest2 (by omega) (by omega)

theorem hasMatch_unfold (old cs : List Char) : pySearchHeader old cs =
    (matchAtB old cs ||
      match cs.drop (lineOf cs).length with
      | [] => false
      | _ :: rest2 => pySearchHeader old rest2) := by
  unfold pySearchHeader
  rw [hasMatchF]
  congr 1
  cases hdrop : cs.drop (lineOf cs).length with
  | nil => rfl
  | cons x rest2 =>
    dsimp only
    have h3 := congrArg List.length hdrop
    simp only [List.length_drop, List.length_cons] at h3
    exact hasMatchF_fuel old _ _ rest2 (by omega) (by omega)

theorem afterMatch_length_le (old cs : List Char) :
    (afterMatch old cs).length ≤ cs.length := by
  unfold afterMatch
  simp only [List.length_drop]
  omega

theorem auxScanF_fuel (old new : List Char) : ∀ f1 f2 cs, cs.length < f1 → cs.length < f2 →
    auxScanF old new f1 cs = auxScanF old new f2 cs := by
  intro f1
  induction f1 with
  | zero => intro f2 cs h1 h2; exact absurd h1 (Nat.not_lt_zero _)
  | succ f1 ih =>
    intro f2 cs h1 h2
    cases f2 with
    | zero => exact absurd h2 (Nat.not_lt_zero _)
    | succ f2 =>
      rw [auxScanF, auxScanF]
      by_cases hemp : cs.isEmpty = true
      · rw [if_pos hemp, if_pos hemp]
      · rw [if_neg hemp, if_neg hemp]
        by_cases hm : matchAtB old cs = true
        · rw [if_pos hm, if_pos hm]
          cases hdrop : (afterMatch old cs).drop (lineOf (afterMatch old cs)).length with
          | nil => rfl
          | cons x rest2 =>
            dsimp only
            have h3 := congrArg List.length hdrop
            simp only [List.length_drop, List.length_cons] at h3
            have h4 := afterMatch_length_le old cs
            rw [ih f2 rest2 (by omega) (by omega)]
        · rw [if_neg hm, if_neg hm]
          cases hdrop : cs.drop (lineOf cs).length with
          | nil => rfl
          | cons x rest2 =>
            dsimp only
            have h3 := congrArg List.length hdrop
            simp only [List.length_drop, List.length_cons] at h3
            rw [ih f2 rest2 (by omega) (by omega)]

theorem subHeaders_unfold (old new cs : List Char) : pySubHeaders old new cs =
    (if cs.isEmpty then []
     else if matchAtB old cs then
       match (afterMatch old cs).drop (lineOf (afterMatch old cs)).length with
       | [] => groupOf cs ++ new ++ lineOf (afterMatch old cs)
       | _ :: rest2 =>
         groupOf cs ++ new ++ lineOf (afterMatch old cs) ++ '\n' :: pySubHeaders old new rest2
     else
       match cs.drop (lineOf cs).length with
       | [] => lineOf cs
       | _ :: rest2 => lineOf cs ++ '\n' :: pySubHeaders old new rest2) := by
  unfold pySubHeaders
  rw [auxScanF]
  by_cases hemp : cs.isEmpty = true
  · rw [if_pos hemp, if_pos hemp]
  · rw [if_neg hemp, if_neg hemp]
    by_cases hm : matchAtB old cs = true
    · rw [if_pos hm, if_pos hm]
      cases hdrop : (afterMatch old cs).drop (lineOf (afterMatch old cs)).length with
      | nil => rfl
      | cons x rest2 =>
        dsimp only
        have h3 := congrArg List.length hdrop
        simp only [List.length_drop, List.length_cons] at h3
        have h4 := afterMatch_length_le old cs
        rw [auxScanF_fuel old new cs.length (rest2.length + 1) rest2 (by omega) (by omega)]
    · rw [if_neg hm, if_neg hm]
      cases hdrop : cs.drop (lineOf cs).length with
      | nil => rfl
      | cons x rest2 =>
        dsimp only
        have h3 := congrArg List.length hdrop
        simp only [List.length_drop, List.length_cons] at h3
        rw [auxScanF_fuel old new cs.length (rest2.length + 1) rest2 (by omega) (by omega)]

/-! Line-splitting lemmas. -/

theorem splitLines_cons (c : Char) (cs : List Char) :
    splitLines (c :: cs) =
      if c = '\n' then [] :: splitLines cs
      else
        match splitLines cs with
        | [] => [[c]]
        | l :: ls => (c :: l) :: ls := by
  rw [splitLines.eq_def]

theorem splitLines_ne_nil : ∀ cs : List Char, splitLines cs ≠ [] := by
  intro cs
  induction cs with
  | nil => exact List.cons_ne_nil _ _
  | cons c cs ih =>
    rw [splitLines_cons]
    by_cases hc : c = '\n'
    · rw [if_pos hc]
      exact List.cons_ne_nil _ _
    · rw [if_neg hc]
      cases splitLines cs
      · exact List.cons_ne_nil _ _
      · exact List.cons_ne_nil _ _

theorem splitLines_no_newline : ∀ cs : List Char, '\n' ∉ cs → splitLines cs = [cs] := by
  intro cs
  induction cs with
  | nil => intro _; rfl
  | cons c cs ih =>
    intro h
    have hc : c ≠ '\n' := fun he => h (he ▸ List.mem_cons_self _ _)
    rw [splitLines_cons, if_neg hc, ih (fun he => h (List.mem_cons_of_mem _ he))]

theorem splitLines_append_newline : ∀ (L r : List Char), '\n' ∉ L →
    splitLines (L ++ '\n' :: r) = L :: splitLines r := by
  intro L r
  induction L with
  | nil =>
    intro _
    rw [List.nil_append, splitLines_cons, if_pos rfl]
  | cons c L' ih =>
    intro h
    have hc : c ≠ '\n' := fun he => h (he ▸ List.mem_cons_self _ _)
    rw [List.cons_append, splitLines_cons, if_neg hc,
      ih (fun he => h (List.mem_cons_of_mem _ he))]

theorem splitLines_mem_no_newline : ∀ cs : List Char, ∀ L ∈ splitLines cs, '\n' ∉ L := by
  intro cs
  induction cs with
  | nil =>
    intro L hL
    rw [List.mem_singleton.mp hL]
    exact List.not_mem_nil _
  | cons c cs ih =>
    intro L hL
    rw [splitLines_cons] at hL
    by_cases hc : c = '\n'
    · rw [if_pos hc] at hL
      rcases List.mem_cons.mp hL with h | h
      · rw [h]
        exact List.not_mem_nil _
      · exact ih L h
    · rw [if_neg hc] at hL
      cases hsp : splitLines cs with
      | nil => exact absurd hsp (splitLines_ne_nil cs)
      | cons l ls =>
        rw [hsp] at hL
        rcases List.mem_cons.mp hL with h | h
        · rw [h]
          intro hmem
          rcases List.mem_cons.mp hmem with h' | h'
          · exact hc h'.symm
          · exact ih l (hsp ▸ List.mem_cons_self _ _) h'
        · exact ih L (hsp ▸ List.mem_cons_of_mem _ h)

theorem joinLines_cons (l : List Char) (ls : List (List Char)) (h : ls ≠ []) :
    joinLines (l :: ls) = l ++ '\n' :: joinLines ls := by
  cases ls with
  | nil => exact absurd rfl h
  | cons a as => rfl

theorem joinLines_cons_head (c : Char) (l : List Char) (ls : List (List Char)) :
    joinLines ((c :: l) :: ls) = c :: joinLines (l :: ls) := by
  cases ls <;> rfl

theorem joinLines_splitLines : ∀ cs : List Char, joinLines (splitLines cs) = cs := by
  intro cs
  induction cs with
  | nil => rfl
  | cons c cs ih =>
    rw [splitLines_cons]
    by_cases hc : c = '\n'
    · rw [if_pos hc, joinLines_cons _ _ (splitLines_ne_nil cs), ih, hc]
      rfl
    · rw [if_neg hc]
      cases hsp : splitLines cs with
      | nil => exact absurd hsp (splitLines_ne_nil cs)
      | cons l ls =>
        rw [joinLines_cons_head, ← hsp, ih]

theorem splitLines_joinLines : ∀ ls : List (List Char), ls ≠ [] →
    (∀ l ∈ ls, '\n' ∉ l) → splitLines (joinLines ls) = ls := by
  intro ls
  induction ls with
  | nil => intro h _; exact absurd rfl h
  | cons l ls ih =>
    intro _ hnl
    cases ls with
    | nil =>
      show splitLines (joinLines [l]) = [l]
      exact splitLines_no_newline l (hnl l (List.mem_cons_self _ _))
    | cons a as =>
      rw [joinLines_cons _ _ (List.cons_ne_nil a as),
        splitLines_append_newline _ _ (hnl l (List.mem_cons_self _ _)),
        ih (List.cons_ne_nil a as) (fun x hx => hnl x (List.mem_cons_of_mem _ hx))]

/-! Decomposition of a matching position. -/

theorem matchAt_parts {old cs : List Char} (h : matchAtB old cs = true) :
    (hashRun cs).isEmpty = false ∧
    (wsRun (cs.drop (hashRun cs).length)).isEmpty = false ∧
    old.isPrefixOf
      ((cs.drop (hashRun cs).length).drop (wsRun (cs.drop (hashRun cs).length)).length)
      = true ∧
    boundaryB (afterMatch old cs) = true := by
  simp only [matchAtB, Bool.and_eq_true, Bool.not_eq_true'] at h
  exact ⟨h.1.1.1, h.1.1.2, h.1.2, h.2⟩

theorem matchAt_decomp {old cs : List Char} (h : matchAtB old cs = true) :
    groupOf cs ++ (old ++ afterMatch old cs) = cs := by
  obtain ⟨-, -, hpre, -⟩ := matchAt_parts h
  unfold groupOf afterMatch
  rw [List.append_assoc, prefix_recomp hpre]
  unfold hashRun wsRun
  rw [tw_drop_decomp, tw_drop_decomp]

theorem ne_nil_isEmpty {α : Type} {l : List α} (h : l ≠ []) : l.isEmpty = false := by
  cases l with
  | nil => exact absurd rfl h
  | cons a as => rfl

theorem isEmpty_false_ne_nil {α : Type} {l : List α} (h : l.isEmpty = false) : l ≠ [] := by
  intro hnil
  rw [hnil] at h
  cases h

theorem hashRun_of (hs rest : List Char) (hhsall : ∀ c ∈ hs, c = '#')
    (hhead : ∀ c, rest.head? = some c → c ≠ '#') :
    hashRun (hs ++ rest) = hs := by
  unfold hashRun
  refine runs_exact hs rest (fun c hc => decide_eq_true (hhsall c hc))
    (fun c hc => decide_eq_false (hhead c hc))

theorem wsRun_of (ws rest : List Char) (hwsall : ∀ c ∈ ws, pyIsSpace c = true)
    (hhead : ∀ c, rest.head? = some c → pyIsSpace c = false) :
    wsRun (ws ++ rest) = ws := by
  unfold wsRun
  exact runs_exact ws rest hwsall hhead

/-- A line of the heading shape of claim C7: heading marker, whitespace,
the old number at a non-digit-or-end boundary, and a tail. -/
def HeadingShape (old L : List Char) : Prop :=
  ∃ hs ws tail, L = hs ++ (ws ++ (old ++ tail)) ∧ hs ≠ [] ∧ (∀ c ∈ hs, c = '#') ∧
    ws ≠ [] ∧ (∀ c ∈ ws, pyIsSpace c = true) ∧ boundaryB tail = true

theorem headingShape_matchAt {old L : List Char} (hval : validNumberB old = true) :
    HeadingShape old L ↔ matchAtB old L = true := by
  constructor
  · rintro ⟨hs, ws, tail, hL, hhs, hhsall, hws, hwsall, hb⟩
    obtain ⟨d, old', hold, hd⟩ := valid_head old hval
    have hws_head : ∀ c, (ws ++ (old ++ tail)).head? = some c → c ≠ '#' := by
      cases ws with
      | nil => exact absurd rfl hws
      | cons w ws' =>
        intro c hc
        injection hc with hc'
        exact hc' ▸ space_ne_hash (hwsall w (List.mem_cons_self _ _))
    have h1 : hashRun L = hs := by
      rw [hL]
      exact hashRun_of hs _ hhsall hws_head
    have h2 : L.drop hs.length = ws ++ (old ++ tail) := by
      rw [hL]
      exact List.drop_left _ _
    have hold_head : ∀ c, (old ++ tail).head? = some c → pyIsSpace c = false := by
      rw [hold]
      intro c hc
      injection hc with hc'
      exact hc' ▸ digit_not_space hd
    have h3 : wsRun (ws ++ (old ++ tail)) = ws := wsRun_of ws _ hwsall hold_head
    simp only [matchAtB]
    rw [h1, h2, h3, List.drop_left, List.drop_left]
    have hpre : old.isPrefixOf (old ++ tail) = true :=
      List.isPrefixOf_iff_prefix.mpr (List.prefix_append _ _)
    rw [hpre, hb, ne_nil_isEmpty hhs, ne_nil_isEmpty hws]
    rfl
  · intro hm
    obtain ⟨he1, he2, hpre, hb⟩ := matchAt_parts hm
    refine ⟨hashRun L, wsRun (L.drop (hashRun L).length), afterMatch old L,
      (matchAt_decomp hm).symm.trans (List.append_assoc _ _ _),
      isEmpty_false_ne_nil he1,
      fun c hc => of_decide_eq_true (tw_mem L c hc),
      isEmpty_false_ne_nil he2,
      fun c hc => tw_mem _ c hc, hb⟩

/-! Behaviour of a match attempt at a line start. -/

theorem matchAt_not_hashWsOnly {old L : List Char} (hval : validNumberB old = true)
    (hm : matchAtB old L = true) : hashWsOnlyB L = false := by
  obtain ⟨hs0, ws0, hpre, -⟩ := matchAt_parts hm
  obtain ⟨d, old', hold, hd⟩ := valid_head old hval
  have hd2 : d ∈ (L.drop (hashRun L).length).drop
      (wsRun (L.drop (hashRun L).length)).length := by
    rw [← prefix_recomp hpre, hold]
    exact List.mem_append_left _ (List.mem_cons_self _ _)
  have hd1 : d ∈ L.drop (hashRun L).length := List.mem_of_mem_drop hd2
  unfold hashWsOnlyB
  rw [hs0, Bool.not_false, Bool.true_and]
  exact List.all_eq_false.mpr ⟨d, hd1, by rw [digit_not_space hd]; exact Bool.false_ne_true⟩

theorem crossline_components {old L : List Char} (r : List Char)
    (hval : validNumberB old = true)
    (hstop : ∃ c ∈ L.drop (hashRun L).length, pyIsSpace c = false) :
    hashRun (L ++ '\n' :: r) = hashRun L ∧
    (L ++ '\n' :: r).drop (hashRun L).length = L.drop (hashRun L).length ++ '\n' :: r ∧
    wsRun (L.drop (hashRun L).length ++ '\n' :: r) = wsRun (L.drop (hashRun L).length) ∧
    (L.drop (hashRun L).length ++ '\n' :: r).drop
        (wsRun (L.drop (hashRun L).length)).length =
      (L.drop (hashRun L).length).drop (wsRun (L.drop (hashRun L).length)).length
        ++ '\n' :: r ∧
    old.isPrefixOf ((L.drop (hashRun L).length).drop
        (wsRun (L.drop (hashRun L).length)).length ++ '\n' :: r) =
      old.isPrefixOf ((L.drop (hashRun L).length).drop
        (wsRun (L.drop (hashRun L).length)).length) := by
  refine ⟨?_, ?_, ?_, ?_, ?_⟩
  · unfold hashRun
    refine tw_append_newline ?_ L r
    decide
  · exact List.drop_append_of_le_length (List.takeWhile_prefix _).length_le
  · unfold wsRun
    exact tw_append_stop _ _ hstop
  · exact List.drop_append_of_le_length (List.takeWhile_prefix _).length_le
  · exact isPrefixOf_append_newline _ _ (valid_no_newline hval)

theorem hashWs_stop {L : List Char} (hs0 : (hashRun L).isEmpty = false)
    (hreg : hashWsOnlyB L = false) :
    ∃ c ∈ L.drop (hashRun L).length, pyIsSpace c = false := by
  unfold hashWsOnlyB at hreg
  rw [hs0, Bool.not_false, Bool.true_and] at hreg
  obtain ⟨c, hc, hcp⟩ := List.all_eq_false.mp hreg
  exact ⟨c, hc, Bool.eq_false_iff.mpr hcp⟩

theorem matchAt_append_newline {old : List Char} (hval : validNumberB old = true)
    (L r : List Char) (hreg : hashWsOnlyB L = false) :
    matchAtB old (L ++ '\n' :: r) = matchAtB old L := by
  by_cases hs0 : (hashRun L).isEmpty = true
  · have h1 : hashRun (L ++ '\n' :: r) = hashRun L := by
      unfold hashRun
      refine tw_append_newline ?_ L r
      decide
    simp only [matchAtB, h1, hs0, Bool.not_true, Bool.false_and]
  · have hs0' : (hashRun L).isEmpty = false := Bool.eq_false_iff.mpr hs0
    obtain ⟨h1, h2, h3, h4, h5⟩ :=
      @crossline_components old L r hval (hashWs_stop hs0' hreg)
    by_cases hpre : old.isPrefixOf ((L.drop (hashRun L).length).drop
        (wsRun (L.drop (hashRun L).length)).length) = true
    · have hle : old.length ≤ ((L.drop (hashRun L).length).drop
          (wsRun (L.drop (hashRun L).length)).length).length :=
        (List.isPrefixOf_iff_prefix.mp hpre).length_le
      have h6 : (((L.drop (hashRun L).length).drop
            (wsRun (L.drop (hashRun L).length)).length) ++ '\n' :: r).drop old.length =
          ((L.drop (hashRun L).length).drop
            (wsRun (L.drop (hashRun L).length)).length).drop old.length ++ '\n' :: r :=
        List.drop_append_of_le_length hle
      simp only [matchAtB]
      rw [h1, h2, h3, h4, h5, h6, boundaryB_append_newline]
    · have hpre' := Bool.eq_false_iff.mpr hpre
      simp only [matchAtB]
      rw [h1, h2, h3, h4, h5, hpre']
      simp

theorem matchAt_extend {old : List Char} (hval : validNumberB old = true)
    (L r : List Char) (hm : matchAtB old L = true) :
    matchAtB old (L ++ '\n' :: r) = true := by
  rw [matchAt_append_newline hval L r (matchAt_not_hashWsOnly hval hm)]
  exact hm

theorem afterMatch_append_newline {old : List Char} (hval : validNumberB old = true)
    (L r : List Char) (hreg : hashWsOnlyB L = false) (hm : matchAtB old L = true) :
    afterMatch old (L ++ '\n' :: r) = afterMatch old L ++ '\n' :: r := by
  obtain ⟨hs0, ws0, hpre, hb⟩ := matchAt_parts hm
  obtain ⟨h1, h2, h3, h4, h5⟩ :=
    @crossline_components old L r hval (hashWs_stop hs0 hreg)
  have hle : old.length ≤ ((L.drop (hashRun L).length).drop
      (wsRun (L.drop (hashRun L).length)).length).length :=
    (List.isPrefixOf_iff_prefix.mp hpre).length_le
  unfold afterMatch
  rw [h1, h2, h3, h4]
  exact List.drop_append_of_le_length hle

theorem groupOf_append_newline {old L : List Char} (r : List Char)
    (hval : validNumberB old = true) (hreg : hashWsOnlyB L = false)
    (hm : matchAtB old L = true) :
    groupOf (L ++ '\n' :: r) = groupOf L := by
  obtain ⟨hs0, -, -, -⟩ := matchAt_parts hm
  obtain ⟨h1, h2, h3, -, -⟩ :=
    @crossline_components old L r hval (hashWs_stop hs0 hreg)
  unfold groupOf
  rw [h1, h2, h3]

/-! Facts about `lineOf`. -/

theorem lineOf_no_newline {cs : List Char} (h : '\n' ∉ cs) : lineOf cs = cs := by
  unfold lineOf
  exact tw_all cs (fun c hc => decide_eq_true (fun he => h (he ▸ hc)))

theorem lineOf_append_newline (L r : List Char) (h : '\n' ∉ L) :
    lineOf (L ++ '\n' :: r) = L := by
  unfold lineOf
  rw [tw_append_newline (by decide) L r]
  exact tw_all L (fun c hc => decide_eq_true (fun he => h (he ▸ hc)))

theorem drop_lineOf_append (L r : List Char) (h : '\n' ∉ L) :
    (L ++ '\n' :: r).drop (lineOf (L ++ '\n' :: r)).length = '\n' :: r := by
  rw [lineOf_append_newline L r h]
  exact List.drop_left _ _

theorem drop_lineOf_no_newline {cs : List Char} (h : '\n' ∉ cs) :
    cs.drop (lineOf cs).length = [] := by
  rw [lineOf_no_newline h]
  exact List.drop_length _  -- hmm check signature

theorem afterMatch_no_newline {old cs : List Char} (h : '\n' ∉ cs) :
    '\n' ∉ afterMatch old cs := by
  intro hmem
  unfold afterMatch at hmem
  exact h (List.mem_of_mem_drop (List.mem_of_mem_drop (List.mem_of_mem_drop hmem)))

theorem lineOf_decomp (cs : List Char) :
    lineOf cs ++ cs.drop (lineOf cs).length = cs := by
  unfold lineOf
  exact tw_drop_decomp cs

theorem lineOf_no_nl_mem (cs : List Char) : '\n' ∉ lineOf cs := by
  intro h
  have h2 := tw_mem cs '\n' (by unfold lineOf at h; exact h)
  exact (of_decide_eq_true h2) rfl

theorem drop_lineOf_head {cs : List Char} {x : Char} {rest : List Char}
    (h : cs.drop (lineOf cs).length = x :: rest) : x = '\n' := by
  unfold lineOf at h
  rw [drop_len_takeWhile] at h
  have h2 := dropWhile_head_false cs x rest h
  by_contra hne
  rw [decide_eq_true (hne : x ≠ '\n')] at h2
  cases h2

/-! Step lemmas: one line at a time. -/

theorem hasMatch_nolf (old : List Char) {cs : List Char} (h : '\n' ∉ cs) :
    pySearchHeader old cs = matchAtB old cs := by
  rw [hasMatch_unfold, drop_lineOf_no_newline h]
  exact Bool.or_false _

theorem hasMatch_lf {old : List Char} (hval : validNumberB old = true)
    (L r : List Char) (hnl : '\n' ∉ L) (hreg : hashWsOnlyB L = false) :
    pySearchHeader old (L ++ '\n' :: r) = (matchAtB old L || pySearchHeader old r) := by
  rw [hasMatch_unfold, drop_lineOf_append L r hnl, matchAt_append_newline hval L r hreg]

theorem sub_nolf (old new : List Char) {cs : List Char} (h : '\n' ∉ cs) :
    pySubHeaders old new cs = rewriteLine old new cs := by
  rw [subHeaders_unfold]
  by_cases hemp : cs.isEmpty = true
  · rw [if_pos hemp]
    have hnil : cs = [] := by
      cases cs with
      | nil => rfl
      | cons a as => cases hemp
    rw [hnil]
    rfl
  · rw [if_neg hemp]
    by_cases hm : matchAtB old cs = true
    · rw [if_pos hm, drop_lineOf_no_newline (afterMatch_no_newline h),
        lineOf_no_newline (afterMatch_no_newline h)]
      unfold rewriteLine
      rw [if_pos hm]
    · rw [if_neg hm, drop_lineOf_no_newline h, lineOf_no_newline h]
      unfold rewriteLine
      rw [if_neg hm]

theorem sub_lf {old : List Char} (hval : validNumberB old = true) (new L r : List Char)
    (hnl : '\n' ∉ L) (hreg : hashWsOnlyB L = false) :
    pySubHeaders old new (L ++ '\n' :: r) =
      rewriteLine old new L ++ '\n' :: pySubHeaders old new r := by
  rw [subHeaders_unfold]
  have hemp : (L ++ '\n' :: r).isEmpty = false := by
    cases L <;> rfl
  rw [hemp, if_neg Bool.false_ne_true, matchAt_append_newline hval L r hreg]
  by_cases hm : matchAtB old L = true
  · rw [if_pos hm, afterMatch_append_newline hval L r hreg hm,
      drop_lineOf_append _ r (afterMatch_no_newline hnl),
      lineOf_append_newline _ r (afterMatch_no_newline hnl),
      groupOf_append_newline r hval hreg hm]
    unfold rewriteLine
    rw [if_pos hm]
  · rw [if_neg hm, drop_lineOf_append L r hnl, lineOf_append_newline L r hnl]
    unfold rewriteLine
    rw [if_neg hm]

theorem regular_head {cs L : List Char} (hreg : lineRegularB cs = true)
    (hL : L ∈ splitLines cs) : hashWsOnlyB L = false := by
  unfold lineRegularB at hreg
  have h2 := List.all_eq_true.mp hreg L hL
  cases hb : hashWsOnlyB L
  · rfl
  · rw [hb] at h2
    exact absurd h2 (by decide)

theorem regular_tail {cs L rest : List Char}
    (hsplit : splitLines cs = L :: splitLines rest)
    (hreg : lineRegularB cs = true) : lineRegularB rest = true := by
  unfold lineRegularB at hreg ⊢
  rw [hsplit, List.all_cons, Bool.and_eq_true] at hreg
  exact hreg.2

theorem subHeaders_lines_aux (old new : List Char) (hval : validNumberB old = true) :
    ∀ (n : Nat) (cs : List Char), cs.length ≤ n → lineRegularB cs = true →
      pySubHeaders old new cs = joinLines ((splitLines cs).map (rewriteLine old new)) := by
  intro n
  induction n with
  | zero =>
    intro cs hlen _
    rw [List.length_eq_zero.mp (Nat.le_zero.mp hlen)]
    rfl
  | succ n ih =>
    intro cs hlen hreg
    cases hdrop : cs.drop (lineOf cs).length with
    | nil =>
      have hdec := lineOf_decomp cs
      rw [hdrop, List.append_nil] at hdec
      have hnl : '\n' ∉ cs := by
        rw [← hdec]
        exact lineOf_no_nl_mem cs
      rw [sub_nolf _ new hnl, splitLines_no_newline cs hnl]
      rfl
    | cons x rest =>
      have hx : x = '\n' := drop_lineOf_head hdrop
      have hdec := lineOf_decomp cs
      rw [hdrop, hx] at hdec
      have hnlL : '\n' ∉ lineOf cs := lineOf_no_nl_mem cs
      have hsplit : splitLines cs = lineOf cs :: splitLines rest := by
        conv_lhs => rw [← hdec]
        exact splitLines_append_newline _ _ hnlL
      have hregL : hashWsOnlyB (lineOf cs) = false :=
        regular_head hreg (hsplit ▸ List.mem_cons_self _ _)
      have hlen2 : rest.length ≤ n := by
        have h3 := congrArg List.length hdec
        simp only [List.length_append, List.length_cons] at h3
        omega
      have hregR : lineRegularB rest = true := regular_tail hsplit hreg
      rw [← hdec, sub_lf hval new (lineOf cs) rest hnlL hregL,
        splitLines_append_newline _ _ hnlL, List.map_cons,
        joinLines_cons _ _ (fun h => splitLines_ne_nil rest (List.map_eq_nil_iff.mp h)),
        ih rest hlen2 hregR]

theorem searchHeader_lines_aux (old : List Char) (hval : validNumberB old = true) :
    ∀ (n : Nat) (cs : List Char), cs.length ≤ n → lineRegularB cs = true →
      pySearchHeader old cs = (splitLines cs).any (matchAtB old) := by
  intro n
  induction n with
  | zero =>
    intro cs hlen _
    rw [List.length_eq_zero.mp (Nat.le_zero.mp hlen)]
    rfl
  | succ n ih =>
    intro cs hlen hreg
    cases hdrop : cs.drop (lineOf cs).length with
    | nil =>
      have hdec := lineOf_decomp cs
      rw [hdrop, List.append_nil] at hdec
      have hnl : '\n' ∉ cs := by
        rw [← hdec]
        exact lineOf_no_nl_mem cs
      rw [hasMatch_nolf _ hnl, splitLines_no_newline cs hnl, List.any_cons, List.any_nil,
        Bool.or_false]
    | cons x rest =>
      have hx : x = '\n' := drop_lineOf_head hdrop
      have hdec := lineOf_decomp cs
      rw [hdrop, hx] at hdec
      have hnlL : '\n' ∉ lineOf cs := lineOf_no_nl_mem cs
      have hsplit : splitLines cs = lineOf cs :: splitLines rest := by
        conv_lhs => rw [← hdec]
        exact splitLines_append_newline _ _ hnlL
      have hregL : hashWsOnlyB (lineOf cs) = false :=
        regular_head hreg (hsplit ▸ List.mem_cons_self _ _)
      have hlen2 : rest.length ≤ n := by
        have h3 := congrArg List.length hdec
        simp only [List.length_append, List.length_cons] at h3
        omega
      have hregR : lineRegularB rest = true := regular_tail hsplit hreg
      rw [← hdec, hasMatch_lf hval (lineOf cs) rest hnlL hregL,
        splitLines_append_newline _ _ hnlL, List.any_cons, ih rest hlen2 hregR]

theorem subHeaders_self_aux (old : List Char) :
    ∀ (n : Nat) (cs : List Char), cs.length ≤ n → pySubHeaders old old cs = cs := by
  intro n
  induction n with
  | zero =>
    intro cs hlen
    rw [List.length_eq_zero.mp (Nat.le_zero.mp hlen)]
    rfl
  | succ n ih =>
    intro cs hlen
    rw [subHeaders_unfold]
    by_cases hemp : cs.isEmpty = true
    · rw [if_pos hemp]
      cases cs with
      | nil => rfl
      | cons a as => cases hemp
    · rw [if_neg hemp]
      by_cases hm : matchAtB old cs = true
      · rw [if_pos hm]
        have hdec := matchAt_decomp hm
        cases hdrop : (afterMatch old cs).drop (lineOf (afterMatch old cs)).length with
        | nil =>
          dsimp only
          have ha := lineOf_decomp (afterMatch old cs)
          rw [hdrop, List.append_nil] at ha
          rw [ha]
          conv_rhs => rw [← hdec]
          simp only [List.append_assoc]
        | cons x rest2 =>
          dsimp only
          have hx : x = '\n' := drop_lineOf_head hdrop
          have ha := lineOf_decomp (afterMatch old cs)
          rw [hdrop, hx] at ha
          have hlen2 : rest2.length ≤ n := by
            have h3 := congrArg List.length ha
            have h4 := afterMatch_length_le old cs
            simp only [List.length_append, List.length_cons] at h3
            omega
          rw [ih rest2 hlen2]
          conv_rhs => rw [← hdec, ← ha]
          simp only [List.append_assoc]
      · rw [if_neg hm]
        cases hdrop : cs.drop (lineOf cs).length with
        | nil =>
          dsimp only
          have hdec := lineOf_decomp cs
          rw [hdrop, List.append_nil] at hdec
          exact hdec
        | cons x rest2 =>
          dsimp only
          have hx : x = '\n' := drop_lineOf_head hdrop
          have hdec := lineOf_decomp cs
          rw [hdrop, hx] at hdec
          have hlen2 : rest2.length ≤ n := by
            have h3 := congrArg List.length hdec
            simp only [List.length_append, List.length_cons] at h3
            omega
          rw [ih rest2 hlen2, hdec]

theorem subHeaders_self (old cs : List Char) : pySubHeaders old old cs = cs :=
  subHeaders_self_aux old cs.length cs (Nat.le_refl _)

/-! No re-match: conditions under which the replacement text cannot be
matched again by the same pattern. -/

theorem boundaryB_cons_digit {d : Char} {r : List Char} (hd : d.isDigit = true) :
    boundaryB (d :: r) = false := by
  simp [boundaryB, hd]

theorem digit_of_boundary_false {d : Char} {r : List Char}
    (h : boundaryB (d :: r) = false) : d.isDigit = true := by
  cases hdd : d.isDigit
  · rw [show boundaryB (d :: r) = !d.isDigit from rfl, hdd] at h
    exact absurd h (by decide)
  · rfl

theorem no_rematch {old new : List Char} (ho : validNumberB old = true)
    (hn : validNumberB new = true)
    (h1 : titleMatchB old new = false) (h2 : titleMatchB new old = false) :
    ∀ tail, boundaryB tail = true → titleMatchB old (new ++ tail) = false := by
  intro tail hb
  by_contra hcon
  have hm : titleMatchB old (new ++ tail) = true := by
    cases hx : titleMatchB old (new ++ tail)
    · exact absurd hx hcon
    · rfl
  unfold titleMatchB at hm
  rw [Bool.and_eq_true] at hm
  obtain ⟨hpre, hbnd⟩ := hm
  have hpre' : old <+: new ++ tail := List.isPrefixOf_iff_prefix.mp hpre
  by_cases hlen : old.length ≤ new.length
  · have hpn : old <+: new :=
      List.prefix_of_prefix_length_le hpre' (List.prefix_append new tail) hlen
    have hpreB : old.isPrefixOf new = true := List.isPrefixOf_iff_prefix.mpr hpn
    have hbd : boundaryB (new.drop old.length) = false := by
      unfold titleMatchB at h1
      rw [hpreB, Bool.true_and] at h1
      exact h1
    cases hd : new.drop old.length with
    | nil =>
      rw [hd] at hbd
      exact absurd hbd (by decide)
    | cons d r =>
      rw [hd] at hbd
      have hdig : d.isDigit = true := digit_of_boundary_false hbd
      have hdrop2 : (new ++ tail).drop old.length = d :: (r ++ tail) := by
        rw [List.drop_append_of_le_length hlen, hd, List.cons_append]
      rw [hdrop2, boundaryB_cons_digit hdig] at hbnd
      exact absurd hbnd (by decide)
  · have hlen2 : new.length ≤ old.length := le_of_lt (not_le.mp hlen)
    have hnp : new <+: old :=
      List.prefix_of_prefix_length_le (List.prefix_append new tail) hpre' hlen2
    have hnpB : new.isPrefixOf old = true := List.isPrefixOf_iff_prefix.mpr hnp
    have hbd : boundaryB (old.drop new.length) = false := by
      unfold titleMatchB at h2
      rw [hnpB, Bool.true_and] at h2
      exact h2
    cases hd : old.drop new.length with
    | nil =>
      have h5 : old.length ≤ new.length := by
        have h6 := congrArg List.length hd
        simp only [List.length_drop, List.length_nil] at h6
        omega
      exact hlen h5
    | cons d r =>
      rw [hd] at hbd
      have hdig : d.isDigit = true := digit_of_boundary_false hbd
      have hrec : new ++ d :: r = old := by
        rw [← hd]
        exact prefix_recomp hnpB
      have htp : d :: r <+: tail := by
        have h5 : new ++ d :: r <+: new ++ tail := hrec ▸ hpre'
        exact (List.prefix_append_right_inj new).mp h5
      obtain ⟨t2, ht2⟩ := htp
      rw [← ht2, List.cons_append, boundaryB_cons_digit hdig] at hb
      exact absurd hb (by decide)

theorem rewriteLine_assoc (old new L : List Char) (hm : matchAtB old L = true) :
    rewriteLine old new L
      = hashRun L ++ (wsRun (L.drop (hashRun L).length) ++ (new ++ afterMatch old L)) := by
  unfold rewriteLine
  rw [if_pos hm]
  unfold groupOf
  simp only [List.append_assoc]

theorem hashRun_rewritten {old new L : List Char}
    (ws0 : (wsRun (L.drop (hashRun L).length)).isEmpty = false) :
    hashRun (hashRun L
        ++ (wsRun (L.drop (hashRun L).length) ++ (new ++ afterMatch old L)))
      = hashRun L := by
  apply hashRun_of
  · intro c hc
    exact of_decide_eq_true (tw_mem L c hc)
  · cases hws : wsRun (L.drop (hashRun L).length) with
    | nil =>
      rw [hws] at ws0
      exact absurd ws0 (by decide)
    | cons w ws' =>
      intro c hc
      rw [List.cons_append] at hc
      injection hc with hc'
      have hw : pyIsSpace w = true := tw_mem _ w (hws ▸ List.mem_cons_self _ _)
      rw [← hc']
      exact space_ne_hash hw

theorem wsRun_rewritten {old new L : List Char} (hn : validNumberB new = true) :
    wsRun (wsRun (L.drop (hashRun L).length) ++ (new ++ afterMatch old L))
      = wsRun (L.drop (hashRun L).length) := by
  obtain ⟨d, new', hnew, hd⟩ := valid_head new hn
  apply wsRun_of
  · intro c hc
    exact tw_mem _ c hc
  · intro c hc
    rw [hnew, List.cons_append] at hc
    injection hc with hc'
    rw [← hc']
    exact digit_not_space hd

theorem matchAt_of_rewritten {old new : List Char} (ho : validNumberB old = true)
    (hn : validNumberB new = true)
    (hnr : ∀ tail, boundaryB tail = true → titleMatchB old (new ++ tail) = false)
    (L : List Char) (hm : matchAtB old L = true) :
    matchAtB old (rewriteLine old new L) = false := by
  obtain ⟨hs0, ws0, hpre, hb⟩ := matchAt_parts hm
  rw [rewriteLine_assoc old new L hm]
  have h1 := @hashRun_rewritten old new L ws0
  have h2 : (hashRun L
        ++ (wsRun (L.drop (hashRun L).length) ++ (new ++ afterMatch old L))).drop
          (hashRun L).length
      = wsRun (L.drop (hashRun L).length) ++ (new ++ afterMatch old L) :=
    List.drop_left _ _
  have h3 := @wsRun_rewritten old new L hn
  have h4 : (wsRun (L.drop (hashRun L).length) ++ (new ++ afterMatch old L)).drop
        (wsRun (L.drop (hashRun L).length)).length
      = new ++ afterMatch old L :=
    List.drop_left _ _
  simp only [matchAtB]
  rw [h1, h2, h3, h4]
  have h5 := hnr (afterMatch old L) hb
  unfold titleMatchB at h5
  rw [Bool.and_assoc, h5, Bool.and_false]

theorem rewritten_not_hashWsOnly {old new : List Char} (hn : validNumberB new = true)
    (L : List Char) (hreg : hashWsOnlyB L = false) :
    hashWsOnlyB (rewriteLine old new L) = false := by
  by_cases hm : matchAtB old L = true
  · obtain ⟨hs0, ws0, hpre, hb⟩ := matchAt_parts hm
    obtain ⟨d, new', hnew, hd⟩ := valid_head new hn
    rw [rewriteLine_assoc old new L hm]
    have h1 := @hashRun_rewritten old new L ws0
    unfold hashWsOnlyB
    rw [h1, List.drop_left]
    have hdm : d ∈ wsRun (L.drop (hashRun L).length) ++ (new ++ afterMatch old L) := by
      apply List.mem_append_right
      apply List.mem_append_left
      rw [hnew]
      exact List.mem_cons_self _ _
    rw [List.all_eq_false.mpr ⟨d, hdm, by rw [digit_not_space hd]; exact Bool.false_ne_true⟩]
    exact Bool.and_false _
  · unfold rewriteLine
    rw [if_neg hm]
    exact hreg

theorem rewriteLine_no_newline {old new L : List Char} (hL : '\n' ∉ L)
    (hnew : '\n' ∉ new) : '\n' ∉ rewriteLine old new L := by
  unfold rewriteLine
  by_cases hm : matchAtB old L = true
  · rw [if_pos hm]
    intro hmem
    rw [List.mem_append, List.mem_append] at hmem
    rcases hmem with (hg | hn2) | ha
    · unfold groupOf at hg
      rw [List.mem_append] at hg
      cases hg with
      | inl h =>
        unfold hashRun at h
        exact hL ((List.takeWhile_prefix _).subset h)
      | inr h =>
        unfold wsRun at h
        exact hL (List.mem_of_mem_drop ((List.takeWhile_prefix _).subset h))
    · exact hnew hn2
    · unfold afterMatch at ha
      exact hL (List.mem_of_mem_drop (List.mem_of_mem_drop (List.mem_of_mem_drop ha)))
  · rw [if_neg hm]
    exact hL

/-! `str.strip` facts needed for the title path. -/

theorem dropWhile_head_keep {p : Char → Bool} (l : List Char)
    (h : ∀ c, l.head? = some c → p c = false) : l.dropWhile p = l := by
  cases l with
  | nil => rfl
  | cons a as =>
    rw [List.dropWhile_cons, h a rfl]
    rw [if_neg Bool.false_ne_true]

theorem pyStrip_eq_self {cs : List Char}
    (hh : ∀ c, cs.head? = some c → pyIsSpace c = false)
    (hl : ∀ c, cs.getLast? = some c → pyIsSpace c = false) : pyStrip cs = cs := by
  unfold pyStrip
  rw [dropWhile_head_keep cs hh]
  rw [dropWhile_head_keep cs.reverse (fun c hc => hl c (by rwa [List.head?_reverse] at hc))]
  exact List.reverse_reverse cs

theorem pyStrip_last (l : List Char) :
    ∀ c, (pyStrip l).getLast? = some c → pyIsSpace c = false := by
  intro c hc
  unfold pyStrip at hc
  rw [List.getLast?_reverse] at hc
  cases hX : (l.dropWhile pyIsSpace).reverse.dropWhile pyIsSpace with
  | nil => rw [hX] at hc; cases hc
  | cons a r =>
    rw [hX] at hc
    injection hc with hc'
    rw [← hc']
    exact dropWhile_head_false _ a r hX

theorem getLast_of_drop {l : List Char} {n : Nat} (h : l.drop n ≠ []) :
    (l.drop n).getLast? = l.getLast? := by
  conv_rhs => rw [← List.take_append_drop n l]
  rw [List.getLast?_append_of_ne_nil _ h]

theorem strip_of_title_rewrite {old new s : List Char} (hn : validNumberB new = true)
    (hs : ∀ c, s.getLast? = some c → pyIsSpace c = false) :
    pyStrip (new ++ s.drop old.length) = new ++ s.drop old.length := by
  apply pyStrip_eq_self
  · intro c hc
    obtain ⟨d, new', hnew, hd⟩ := valid_head new hn
    rw [hnew, List.cons_append] at hc
    injection hc with hc'
    rw [← hc']
    exact digit_not_space hd
  · intro c hc
    cases hdr : s.drop old.length with
    | nil =>
      rw [hdr, List.append_nil] at hc
      exact digit_not_space (valid_last_digit new hn c hc)
    | cons a r =>
      rw [hdr, List.getLast?_append_of_ne_nil _ (List.cons_ne_nil a r), ← hdr,
        getLast_of_drop (by rw [hdr]; exact List.cons_ne_nil a r)] at hc
      exact hs c hc

/-- A closed form of `apply_renumbering` used to reason about repeated
application. -/
theorem apply_renumbering_eq (t b o n : List Char) :
    apply_renumbering t b o n =
      ((if titleMatchB o (pyStrip t) = true then n ++ (pyStrip t).drop o.length else t),
        ((if pySearchHeader o b = true then pySubHeaders o n b else b),
          (titleMatchB o (pyStrip t) || pySearchHeader o b))) := rfl

theorem search_false_after {old new body : List Char} (ho : validNumberB old = true)
    (hn : validNumberB new = true)
    (hnr : ∀ tail, boundaryB tail = true → titleMatchB old (new ++ tail) = false)
    (hreg : lineRegularB body = true) :
    pySearchHeader old (pySubHeaders old new body) = false := by
  have hlines := subHeaders_lines_aux old new ho body.length body (Nat.le_refl _) hreg
  have hnn : ∀ l ∈ (splitLines body).map (rewriteLine old new), '\n' ∉ l := by
    intro l hl
    obtain ⟨L, hL, hLe⟩ := List.mem_map.mp hl
    rw [← hLe]
    exact rewriteLine_no_newline (splitLines_mem_no_newline body L hL) (valid_no_newline hn)
  have hne2 : (splitLines body).map (rewriteLine old new) ≠ [] :=
    fun h => splitLines_ne_nil body (List.map_eq_nil_iff.mp h)
  have hsp : splitLines (pySubHeaders old new body)
      = (splitLines body).map (rewriteLine old new) := by
    rw [hlines]
    exact splitLines_joinLines _ hne2 hnn
  have hreg2 : lineRegularB (pySubHeaders old new body) = true := by
    unfold lineRegularB
    rw [hsp]
    apply List.all_eq_true.mpr
    intro l hl
    obtain ⟨L, hL, hLe⟩ := List.mem_map.mp hl
    rw [← hLe, rewritten_not_hashWsOnly hn L (regular_head hreg hL)]
    rfl
  rw [searchHeader_lines_aux old ho (pySubHeaders old new body).length _ (Nat.le_refl _)
    hreg2, hsp]
  apply List.any_eq_false.mpr
  intro l hl
  obtain ⟨L, hL, hLe⟩ := List.mem_map.mp hl
  rw [← hLe]
  by_cases hm : matchAtB old L = true
  · rw [matchAt_of_rewritten ho hn hnr L hm]
    exact Bool.false_ne_true
  · unfold rewriteLine
    rw [if_neg hm]
    intro hcon
    exact hm hcon

/-- C10 (amended): when `old_number = new_number` and the stripped title or
some body heading matches, `apply_renumbering` reports `changed = true`
although the text is not renumbered; the body is returned unchanged, but a
matched title is returned **stripped** of surrounding whitespace (the
substitution is performed on `subject.strip()`), so the returned title is
textually identical to the input only when the title carries no leading or
trailing whitespace. -/
theorem changed_flag_amended (title body o : List Char)
    (h : (titleMatchB o (pyStrip title) || pySearchHeader o body) = true) :
    apply_renumbering title body o o =
      ((if titleMatchB o (pyStrip title) = true then pyStrip title else title),
        body, true) := by
  rw [apply_renumbering_eq]
  have hT : (if titleMatchB o (pyStrip title) = true
        then o ++ (pyStrip title).drop o.length else title)
      = (if titleMatchB o (pyStrip title) = true then pyStrip title else title) := by
    by_cases hc : titleMatchB o (pyStrip title) = true
    · rw [if_pos hc, if_pos hc]
      unfold titleMatchB at hc
      rw [Bool.and_eq_true] at hc
      exact prefix_recomp hc.1
    · rw [if_neg hc, if_neg hc]
  have hB : (if pySearchHeader o body = true then pySubHeaders o o body else body)
      = body := by
    by_cases hd : pySearchHeader o body = true
    · rw [if_pos hd]
      exact subHeaders_self o body
    · rw [if_neg hd]
  rw [hT, hB, h]

theorem changed_flag_amended_witness :
    (titleMatchB "5.2".toList (pyStrip " 5.2 X ".toList)
        || pySearchHeader "5.2".toList "body".toList) = true ∧
    apply_renumbering " 5.2 X ".toList "body".toList "5.2".toList "5.2".toList
      = ((if titleMatchB "5.2".toList (pyStrip " 5.2 X ".toList) = true
          then pyStrip " 5.2 X ".toList else " 5.2 X ".toList), "body".toList, true) :=
  ⟨by decide,
    changed_flag_amended " 5.2 X ".toList "body".toList "5.2".toList (by decide)⟩

/-- C7 (amended): provided no body line consists solely of heading marks
and whitespace (otherwise the pattern's `\s+` crosses the newline and a
following non-heading line is rewritten), the body substitution acts line
by line: every line of heading shape — `#`-marks, whitespace, the old
number at a non-digit-or-end boundary — is rewritten with only the number
replaced, at every heading depth, and every other line is left unchanged;
the body search likewise reports exactly whether some line matches; and
the title `"5.20 Other"` is not treated as a match for old number `5.2`,
with `changed = false`. -/
theorem heading_rewrite_amended ( old_number new : List Char)
    (hval : validNumberB old_number = true) (content : List Char)
    (hreg : lineRegularB content = true) :
    pySubHeaders old_number new content
        = joinLines ((splitLines content).map (rewriteLine old_number new)) ∧
    (∀ hs ws tail, hs ≠ [] → (∀ c ∈ hs, c = '#') → ws ≠ [] →
        (∀ c ∈ ws, pyIsSpace c = true) → boundaryB tail = true →
        rewriteLine old_number new (hs ++ (ws ++ ( old_number ++ tail)))
          = hs ++ (ws ++ (new ++ tail))) ∧
    (∀ L, ¬ HeadingShape old_number L → rewriteLine old_number new L = L) ∧
    pySearchHeader old_number content = (splitLines content).any (matchAtB old_number) ∧
    apply_renumbering "5.20 Other".toList "".toList "5.2".toList "5.3".toList
      = ("5.20 Other".toList, "".toList, false) := by
  refine ⟨?_, ?_, ?_, ?_, ?_⟩
  · exact subHeaders_lines_aux _ new hval content.length content (Nat.le_refl _) hreg
  · intro hs ws tail hhs hhsall hws hwsall hb
    have hm : matchAtB old_number (hs ++ (ws ++ ( old_number ++ tail))) = true :=
      (headingShape_matchAt hval).mp ⟨hs, ws, tail, rfl, hhs, hhsall, hws, hwsall, hb⟩
    have hhr : hashRun (hs ++ (ws ++ ( old_number ++ tail))) = hs := by
      apply hashRun_of hs _ hhsall
      cases ws with
      | nil => exact absurd rfl hws
      | cons w ws' =>
        intro c hc
        rw [List.cons_append] at hc
        injection hc with hc'
        rw [← hc']
        exact space_ne_hash (hwsall w (List.mem_cons_self _ _))
    have hwr : wsRun (ws ++ ( old_number ++ tail)) = ws := by
      apply wsRun_of ws _ hwsall
      obtain ⟨d, old', hold, hd⟩ := valid_head _ hval
      intro c hc
      rw [hold, List.cons_append] at hc
      injection hc with hc'
      rw [← hc']
      exact digit_not_space hd
    unfold rewriteLine
    rw [if_pos hm]
    unfold groupOf afterMatch
    rw [hhr, List.drop_left, hwr, List.drop_left, List.drop_left]
    simp only [List.append_assoc]
  · intro L hnot
    have hm : matchAtB old_number L = false := by
      cases hmm : matchAtB old_number L
      · rfl
      · exact absurd ((headingShape_matchAt hval).mpr hmm) hnot
    unfold rewriteLine
    rw [hm, if_neg Bool.false_ne_true]
  · exact searchHeader_lines_aux _ hval content.length content (Nat.le_refl _) hreg
  · decide

theorem heading_rewrite_amended_witness :
    (validNumberB "5.2".toList = true ∧
     lineRegularB "# 5.2 A\nsee 5.2.2".toList = true) ∧
    (pySubHeaders "5.2".toList "5.3".toList "# 5.2 A\nsee 5.2.2".toList
        = joinLines ((splitLines "# 5.2 A\nsee 5.2.2".toList).map
            (rewriteLine "5.2".toList "5.3".toList)) ∧
    (∀ hs ws tail, hs ≠ [] → (∀ c ∈ hs, c = '#') → ws ≠ [] →
        (∀ c ∈ ws, pyIsSpace c = true) → boundaryB tail = true →
        rewriteLine "5.2".toList "5.3".toList (hs ++ (ws ++ ("5.2".toList ++ tail)))
          = hs ++ (ws ++ ("5.3".toList ++ tail))) ∧
    (∀ L, ¬ HeadingShape "5.2".toList L →
        rewriteLine "5.2".toList "5.3".toList L = L) ∧
    pySearchHeader "5.2".toList "# 5.2 A\nsee 5.2.2".toList
        = (splitLines "# 5.2 A\nsee 5.2.2".toList).any (matchAtB "5.2".toList) ∧
    apply_renumbering "5.20 Other".toList "".toList "5.2".toList "5.3".toList
      = ("5.20 Other".toList, "".toList, false)) :=
  ⟨⟨by decide, by decide⟩,
    heading_rewrite_amended "5.2".toList "5.3".toList (by decide)
      "# 5.2 A\nsee 5.2.2".toList (by decide)⟩

/-! Second-pass theory without the line-regularity proviso: the text
produced by `pySubHeaders` contains no further match even when heading
marks and whitespace cross line breaks. -/

theorem tw_append_all {p : Char → Bool} : ∀ (a b : List Char), (∀ c ∈ a, p c = true) →
    (a ++ b).takeWhile p = a ++ b.takeWhile p := by
  intro a b
  induction a with
  | nil => intro _; rfl
  | cons c cs ih =>
    intro h
    rw [List.cons_append, List.takeWhile_cons, h c (List.mem_cons_self _ _), if_pos rfl,
      List.cons_append, ih (fun d hd => h d (List.mem_cons_of_mem c hd))]

theorem hashRun_head {cs : List Char} (h : (hashRun cs).isEmpty = false) :
    ∃ hr, hashRun cs = '#' :: hr := by
  cases hh : hashRun cs with
  | nil => rw [hh] at h; exact absurd h (by decide)
  | cons c hr =>
    refine ⟨hr, ?_⟩
    have hc : c = '#' := by
      have h2 := tw_mem cs c (by rw [show cs.takeWhile (fun c => decide (c = '#')) = hashRun cs from rfl, hh]; exact List.mem_cons_self _ _)
      exact of_decide_eq_true h2
    rw [hc]

theorem hashRun_nil_of_head {cs : List Char}
    (h : ∀ c, cs.head? = some c → c ≠ '#') : hashRun cs = [] := by
  cases cs with
  | nil => rfl
  | cons c r =>
    unfold hashRun
    rw [List.takeWhile_cons, decide_eq_false (h c rfl), if_neg Bool.false_ne_true]

theorem matchAt_no_hash {old cs : List Char} (h : hashRun cs = []) :
    matchAtB old cs = false := by
  simp only [matchAtB]
  rw [h]
  rfl

theorem hasMatch_lf_or (old L r : List Char) (hnl : '\n' ∉ L) :
    pySearchHeader old (L ++ '\n' :: r)
      = (matchAtB old (L ++ '\n' :: r) || pySearchHeader old r) := by
  rw [hasMatch_unfold, drop_lineOf_append L r hnl]

/-- Whether the heading pattern, arriving at `X` with its `#`-run complete
and its whitespace-run still open (having already crossed a newline),
completes a match: `X`'s leading whitespace extends the run, then the
literal `old` and the boundary must follow. -/
def wsTailMatch (old X : List Char) : Bool :=
  old.isPrefixOf (X.drop (wsRun X).length) &&
    boundaryB ((X.drop (wsRun X).length).drop old.length)

theorem wsTail_hash {old : List Char} (ho : validNumberB old = true) (T : List Char) :
    wsTailMatch old ('#' :: T) = false := by
  obtain ⟨d, old', hold, hd⟩ := valid_head old ho
  have hws : wsRun ('#' :: T) = [] := by
    unfold wsRun
    rw [List.takeWhile_cons, show pyIsSpace '#' = false from rfl, if_neg Bool.false_ne_true]
  unfold wsTailMatch
  rw [hws]
  have hp : old.isPrefixOf ('#' :: T) = false := by
    rw [hold]
    cases hcmp : (d :: old').isPrefixOf ('#' :: T)
    · rfl
    · obtain ⟨t, ht⟩ := List.isPrefixOf_iff_prefix.mp hcmp
      rw [List.cons_append] at ht
      injection ht with h1 h2
      rw [h1] at hd
      exact absurd hd (by decide)
  show (old.isPrefixOf (('#' :: T).drop 0) &&
    boundaryB ((('#' :: T).drop 0).drop old.length)) = false
  rw [List.drop_zero, hp, Bool.false_and]

theorem matchAt_hashws {old L : List Char} (hh : hashWsOnlyB L = true) (X : List Char) :
    matchAtB old (L ++ '\n' :: X) = wsTailMatch old X := by
  unfold hashWsOnlyB at hh
  rw [Bool.and_eq_true] at hh
  obtain ⟨hs0, hall⟩ := hh
  have hs0' : (hashRun L).isEmpty = false := by
    cases he : (hashRun L).isEmpty
    · rfl
    · rw [he] at hs0
      exact absurd hs0 (by decide)
  have hallsp : ∀ c ∈ L.drop (hashRun L).length, pyIsSpace c = true :=
    List.all_eq_true.mp hall
  have h1 : hashRun (L ++ '\n' :: X) = hashRun L := by
    unfold hashRun
    refine tw_append_newline ?_ L X
    decide
  have h2 : (L ++ '\n' :: X).drop (hashRun L).length
      = L.drop (hashRun L).length ++ '\n' :: X :=
    List.drop_append_of_le_length (List.takeWhile_prefix _).length_le
  have h3 : wsRun (L.drop (hashRun L).length ++ '\n' :: X)
      = L.drop (hashRun L).length ++ '\n' :: wsRun X := by
    unfold wsRun
    rw [tw_append_all _ _ hallsp, List.takeWhile_cons,
      show pyIsSpace '\n' = true from rfl, if_pos rfl]
  have h4 : (L.drop (hashRun L).length ++ '\n' :: X).drop
      (L.drop (hashRun L).length ++ '\n' :: wsRun X).length
      = X.drop (wsRun X).length := by
    rw [List.length_append, List.length_cons, List.drop_append, List.drop_succ_cons]
  have h5 : (L.drop (hashRun L).length ++ '\n' :: wsRun X).isEmpty = false := by
    cases L.drop (hashRun L).length <;> rfl
  simp only [matchAtB]
  rw [h1, h2, h3, h4, hs0', h5]
  unfold wsTailMatch
  simp only [Bool.not_false, Bool.true_and]

theorem wsTail_peel {old L2 : List Char} (hall : ∀ c ∈ L2, pyIsSpace c = true)
    (Z : List Char) : wsTailMatch old (L2 ++ '\n' :: Z) = wsTailMatch old Z := by
  have h3 : wsRun (L2 ++ '\n' :: Z) = L2 ++ '\n' :: wsRun Z := by
    unfold wsRun
    rw [tw_append_all _ _ hall, List.takeWhile_cons,
      show pyIsSpace '\n' = true from rfl, if_pos rfl]
  unfold wsTailMatch
  rw [h3, List.length_append, List.length_cons, List.drop_append, List.drop_succ_cons]

theorem wsTail_stable {old L2 : List Char} (hno : '\n' ∉ old)
    (hstop : ∃ c ∈ L2, pyIsSpace c = false) (Z : List Char) :
    wsTailMatch old (L2 ++ '\n' :: Z) = wsTailMatch old L2 := by
  have h3 : wsRun (L2 ++ '\n' :: Z) = wsRun L2 := by
    unfold wsRun
    exact tw_append_stop _ _ hstop
  have h4 : (L2 ++ '\n' :: Z).drop (wsRun L2).length
      = L2.drop (wsRun L2).length ++ '\n' :: Z :=
    List.drop_append_of_le_length (List.takeWhile_prefix _).length_le
  have h5 : old.isPrefixOf (L2.drop (wsRun L2).length ++ '\n' :: Z)
      = old.isPrefixOf (L2.drop (wsRun L2).length) :=
    isPrefixOf_append_newline _ _ hno
  unfold wsTailMatch
  rw [h3, h4, h5]
  by_cases hpre : old.isPrefixOf (L2.drop (wsRun L2).length) = true
  · have hle : old.length ≤ (L2.drop (wsRun L2).length).length :=
      (List.isPrefixOf_iff_prefix.mp hpre).length_le
    rw [List.drop_append_of_le_length hle, boundaryB_append_newline]
  · rw [Bool.eq_false_iff.mpr hpre]
    simp

theorem sub_step_nomatch (old new L r : List Char) (hnl : '\n' ∉ L)
    (hm : matchAtB old (L ++ '\n' :: r) = false) :
    pySubHeaders old new (L ++ '\n' :: r) = L ++ '\n' :: pySubHeaders old new r := by
  rw [subHeaders_unfold]
  have hemp : (L ++ '\n' :: r).isEmpty = false := by
    cases L <;> rfl
  rw [hemp, if_neg Bool.false_ne_true, hm, if_neg Bool.false_ne_true,
    drop_lineOf_append L r hnl, lineOf_append_newline L r hnl]

theorem O_match_head (new : List Char) {old cs : List Char} (hm : matchAtB old cs = true) :
    ∃ T, pySubHeaders old new cs = '#' :: T := by
  obtain ⟨hs0, -, -, -⟩ := matchAt_parts hm
  obtain ⟨hr, hhr⟩ := hashRun_head hs0
  have hemp : cs.isEmpty = false := by
    cases cs with
    | nil => cases hhr
    | cons a as => rfl
  rw [subHeaders_unfold, hemp, if_neg Bool.false_ne_true, if_pos hm]
  unfold groupOf
  rw [hhr]
  cases hdrop : (afterMatch old cs).drop (lineOf (afterMatch old cs)).length with
  | nil =>
    dsimp only
    simp only [List.cons_append]
    exact ⟨_, rfl⟩
  | cons x rest2 =>
    dsimp only
    simp only [List.cons_append]
    exact ⟨_, rfl⟩

theorem wsTail_transfer {old new : List Char} (ho : validNumberB old = true) :
    ∀ (n : Nat) (r : List Char), r.length ≤ n → wsTailMatch old r = false →
      wsTailMatch old (pySubHeaders old new r) = false := by
  intro n
  induction n with
  | zero =>
    intro r hlen _
    rw [List.length_eq_zero.mp (Nat.le_zero.mp hlen)]
    obtain ⟨d, old', hold, hd⟩ := valid_head old ho
    rw [hold]
    rfl
  | succ n ih =>
    intro r hlen h
    by_cases hm : matchAtB old r = true
    · obtain ⟨T, hT⟩ := O_match_head new hm
      rw [hT]
      exact wsTail_hash ho T
    · cases hdrop : r.drop (lineOf r).length with
      | nil =>
        have hdec := lineOf_decomp r
        rw [hdrop, List.append_nil] at hdec
        have hnl : '\n' ∉ r := by
          rw [← hdec]
          exact lineOf_no_nl_mem r
        rw [sub_nolf old new hnl]
        unfold rewriteLine
        rw [if_neg hm]
        exact h
      | cons x rest3 =>
        have hx : x = '\n' := drop_lineOf_head hdrop
        have hdec := lineOf_decomp r
        rw [hdrop, hx] at hdec
        have hnlL : '\n' ∉ lineOf r := lineOf_no_nl_mem r
        have hlen2 : rest3.length ≤ n := by
          have h3 := congrArg List.length hdec
          simp only [List.length_append, List.length_cons] at h3
          omega
        have hm2 : matchAtB old (lineOf r ++ '\n' :: rest3) = false := by
          rw [hdec]
          exact Bool.eq_false_iff.mpr hm
        have hstep : pySubHeaders old new r
            = lineOf r ++ '\n' :: pySubHeaders old new rest3 := by
          conv_lhs => rw [← hdec]
          exact sub_step_nomatch old new _ _ hnlL hm2
        have h4 : wsTailMatch old (lineOf r ++ '\n' :: rest3) = false := by
          rw [hdec]
          exact h
        rw [hstep]
        by_cases hall : ∀ c ∈ lineOf r, pyIsSpace c = true
        · rw [wsTail_peel hall]
          apply ih rest3 hlen2
          rw [wsTail_peel hall] at h4
          exact h4
        · push_neg at hall
          obtain ⟨c, hc, hcp⟩ := hall
          have hstop : ∃ c ∈ lineOf r, pyIsSpace c = false :=
            ⟨c, hc, Bool.eq_false_iff.mpr hcp⟩
          rw [wsTail_stable (valid_no_newline ho) hstop]
          rw [wsTail_stable (valid_no_newline ho) hstop] at h4
          exact h4

theorem hashRun_no_newline (cs : List Char) : '\n' ∉ hashRun cs := by
  intro h
  have h2 := tw_mem cs '\n' (by unfold hashRun at h; exact h)
  exact absurd (of_decide_eq_true h2) (by decide)

theorem wsRun_all_space (cs : List Char) : ∀ c ∈ wsRun cs, pyIsSpace c = true := by
  intro c hc
  exact tw_mem cs c (by unfold wsRun at hc; exact hc)

theorem hashRun_all_hash (cs : List Char) : ∀ c ∈ hashRun cs, c = '#' := by
  intro c hc
  exact of_decide_eq_true (tw_mem cs c (by unfold hashRun at hc; exact hc))

theorem head_not_hash_of_space_or (a b : List Char)
    (hall : ∀ c ∈ a, pyIsSpace c = true)
    (hb : ∀ c, b.head? = some c → c ≠ '#') :
    ∀ c, (a ++ b).head? = some c → c ≠ '#' := by
  cases a with
  | nil => exact hb
  | cons x a' =>
    intro c hc
    rw [List.cons_append] at hc
    injection hc with hc'
    rw [← hc']
    exact space_ne_hash (hall x (List.mem_cons_self _ _))

theorem matchAt_ws_false {old new : List Char} (hn : validNumberB new = true)
    (ws X : List Char) (hall : ∀ c ∈ ws, pyIsSpace c = true) :
    matchAtB old (ws ++ (new ++ X)) = false := by
  apply matchAt_no_hash
  apply hashRun_nil_of_head
  apply head_not_hash_of_space_or ws _ hall
  obtain ⟨d, new', hnew, hd⟩ := valid_head new hn
  intro c hc
  rw [hnew, List.cons_append] at hc
  injection hc with hc'
  rw [← hc']
  exact digit_ne_hash hd

theorem matchAt_ws_nl_false (old a Z : List Char)
    (hall : ∀ c ∈ a, pyIsSpace c = true) :
    matchAtB old (a ++ '\n' :: Z) = false := by
  apply matchAt_no_hash
  apply hashRun_nil_of_head
  apply head_not_hash_of_space_or a _ hall
  intro c hc
  injection hc with hc'
  rw [← hc']
  decide

theorem boundary_line {am B r : List Char} (hb : boundaryB am = true)
    (hdec : B ++ '\n' :: r = am) (C : List Char) :
    boundaryB (B ++ '\n' :: C) = true := by
  cases B with
  | nil => rfl
  | cons b B' =>
    rw [← hdec, List.cons_append] at hb
    rw [List.cons_append]
    exact hb

theorem matchAt_group_new {old new : List Char} (hn : validNumberB new = true)
    (hnr : ∀ tail, boundaryB tail = true → titleMatchB old (new ++ tail) = false)
    {hs ws tail : List Char} (hhs : hs ≠ []) (hhsall : ∀ c ∈ hs, c = '#')
    (hws : ws ≠ []) (hwsall : ∀ c ∈ ws, pyIsSpace c = true)
    (hb : boundaryB tail = true) :
    matchAtB old (hs ++ (ws ++ (new ++ tail))) = false := by
  have hhr : hashRun (hs ++ (ws ++ (new ++ tail))) = hs := by
    apply hashRun_of hs _ hhsall
    cases ws with
    | nil => exact absurd rfl hws
    | cons w ws' =>
      intro c hc
      rw [List.cons_append] at hc
      injection hc with hc'
      rw [← hc']
      exact space_ne_hash (hwsall w (List.mem_cons_self _ _))
  have hwr : wsRun (ws ++ (new ++ tail)) = ws := by
    apply wsRun_of ws _ hwsall
    obtain ⟨d, new', hnew, hd⟩ := valid_head new hn
    intro c hc
    rw [hnew, List.cons_append] at hc
    injection hc with hc'
    rw [← hc']
    exact digit_not_space hd
  simp only [matchAtB]
  rw [hhr, List.drop_left, hwr, List.drop_left]
  have h5 := hnr tail hb
  unfold titleMatchB at h5
  rw [Bool.and_assoc, h5, Bool.and_false]

theorem scan_ws_flat {old new : List Char} (hn : validNumberB new = true) :
    ∀ (m : Nat) (ws B : List Char), ws.length ≤ m → (∀ c ∈ ws, pyIsSpace c = true) →
      '\n' ∉ B → pySearchHeader old (ws ++ (new ++ B)) = false := by
  intro m
  induction m with
  | zero =>
    intro ws B hlen hall hnB
    rw [List.length_eq_zero.mp (Nat.le_zero.mp hlen), List.nil_append]
    rw [hasMatch_nolf old (List.not_mem_append (valid_no_newline hn) hnB)]
    have h0 : matchAtB old ([] ++ (new ++ B)) = false :=
      matchAt_ws_false hn [] B (fun c hc => absurd hc (List.not_mem_nil c))
    rw [List.nil_append] at h0
    exact h0
  | succ m ih =>
    intro ws B hlen hall hnB
    cases hdw : ws.drop (lineOf ws).length with
    | nil =>
      have hdecW := lineOf_decomp ws
      rw [hdw, List.append_nil] at hdecW
      have hnlw : '\n' ∉ ws := by
        rw [← hdecW]
        exact lineOf_no_nl_mem ws
      rw [hasMatch_nolf old
        (List.not_mem_append hnlw (List.not_mem_append (valid_no_newline hn) hnB))]
      exact matchAt_ws_false hn ws B hall
    | cons y rest =>
      have hy := drop_lineOf_head hdw
      have hdecW := lineOf_decomp ws
      rw [hdw, hy] at hdecW
      have hlen2 : rest.length ≤ m := by
        have h3 := congrArg List.length hdecW
        simp only [List.length_append, List.length_cons] at h3
        omega
      have hallrest : ∀ c ∈ rest, pyIsSpace c = true := fun c hc => hall c (by
        rw [← hdecW]
        exact List.mem_append_right _ (List.mem_cons_of_mem _ hc))
      have hallw1 : ∀ c ∈ lineOf ws, pyIsSpace c = true := fun c hc => hall c (by
        rw [← hdecW]
        exact List.mem_append_left _ hc)
      have hassoc : ws ++ (new ++ B) = lineOf ws ++ '\n' :: (rest ++ (new ++ B)) := by
        conv_lhs => rw [← hdecW]
        simp [List.append_assoc]
      rw [hassoc, hasMatch_lf_or old _ _ (lineOf_no_nl_mem ws),
        matchAt_ws_nl_false old _ _ hallw1, Bool.false_or]
      exact ih rest B hlen2 hallrest hnB

theorem scan_ws_cont {old new : List Char} (hn : validNumberB new = true) :
    ∀ (m : Nat) (ws B C : List Char), ws.length ≤ m →
      (∀ c ∈ ws, pyIsSpace c = true) → '\n' ∉ B →
      pySearchHeader old (ws ++ (new ++ (B ++ '\n' :: C))) = pySearchHeader old C := by
  intro m
  induction m with
  | zero =>
    intro ws B C hlen hall hnB
    rw [List.length_eq_zero.mp (Nat.le_zero.mp hlen), List.nil_append]
    have hassoc : new ++ (B ++ '\n' :: C) = (new ++ B) ++ '\n' :: C := by
      simp [List.append_assoc]
    rw [hassoc, hasMatch_lf_or old _ _
      (List.not_mem_append (valid_no_newline hn) hnB), ← hassoc]
    have h0 : matchAtB old ([] ++ (new ++ (B ++ '\n' :: C))) = false :=
      matchAt_ws_false hn [] _ (fun c hc => absurd hc (List.not_mem_nil c))
    rw [List.nil_append] at h0
    rw [h0, Bool.false_or]
  | succ m ih =>
    intro ws B C hlen hall hnB
    cases hdw : ws.drop (lineOf ws).length with
    | nil =>
      have hdecW := lineOf_decomp ws
      rw [hdw, List.append_nil] at hdecW
      have hnlw : '\n' ∉ ws := by
        rw [← hdecW]
        exact lineOf_no_nl_mem ws
      have hassoc : ws ++ (new ++ (B ++ '\n' :: C)) = (ws ++ (new ++ B)) ++ '\n' :: C := by
        simp [List.append_assoc]
      rw [hassoc, hasMatch_lf_or old _ _
        (List.not_mem_append hnlw (List.not_mem_append (valid_no_newline hn) hnB)),
        ← hassoc, matchAt_ws_false hn ws _ hall, Bool.false_or]
    | cons y rest =>
      have hy := drop_lineOf_head hdw
      have hdecW := lineOf_decomp ws
      rw [hdw, hy] at hdecW
      have hlen2 : rest.length ≤ m := by
        have h3 := congrArg List.length hdecW
        simp only [List.length_append, List.length_cons] at h3
        omega
      have hallrest : ∀ c ∈ rest, pyIsSpace c = true := fun c hc => hall c (by
        rw [← hdecW]
        exact List.mem_append_right _ (List.mem_cons_of_mem _ hc))
      have hallw1 : ∀ c ∈ lineOf ws, pyIsSpace c = true := fun c hc => hall c (by
        rw [← hdecW]
        exact List.mem_append_left _ hc)
      have hassoc : ws ++ (new ++ (B ++ '\n' :: C))
          = lineOf ws ++ '\n' :: (rest ++ (new ++ (B ++ '\n' :: C))) := by
        conv_lhs => rw [← hdecW]
        simp [List.append_assoc]
      rw [hassoc, hasMatch_lf_or old _ _ (lineOf_no_nl_mem ws),
        matchAt_ws_nl_false old _ _ hallw1, Bool.false_or]
      exact ih rest B C hlen2 hallrest hnB

theorem search_sub_false {old new : List Char} (ho : validNumberB old = true)
    (hn : validNumberB new = true)
    (hnr : ∀ tail, boundaryB tail = true → titleMatchB old (new ++ tail) = false) :
    ∀ (n : Nat) (cs : List Char), cs.length ≤ n →
      pySearchHeader old (pySubHeaders old new cs) = false := by
  intro n
  induction n with
  | zero =>
    intro cs hlen
    rw [List.length_eq_zero.mp (Nat.le_zero.mp hlen)]
    obtain ⟨d, old', hold, hd⟩ := valid_head old ho
    rw [hold]
    rfl
  | succ n ih =>
    intro cs hlen
    by_cases hm : matchAtB old cs = true
    · obtain ⟨hs0, ws0, hpre, hb⟩ := matchAt_parts hm
      have hA_ne : hashRun cs ≠ [] := isEmpty_false_ne_nil hs0
      have hW_ne : wsRun (cs.drop (hashRun cs).length) ≠ [] := isEmpty_false_ne_nil ws0
      have hAall := hashRun_all_hash cs
      have hWall := wsRun_all_space (cs.drop (hashRun cs).length)
      have hnlA : '\n' ∉ hashRun cs := hashRun_no_newline cs
      have hemp : cs.isEmpty = false := by
        cases cs with
        | nil =>
          have h0 : matchAtB old ([] : List Char) = false := rfl
          rw [h0] at hm
          exact absurd hm (by decide)
        | cons a as => rfl
      rw [subHeaders_unfold, hemp, if_neg Bool.false_ne_true, if_pos hm]
      cases hdrop : (afterMatch old cs).drop (lineOf (afterMatch old cs)).length with
      | nil =>
        dsimp only
        have ha := lineOf_decomp (afterMatch old cs)
        rw [hdrop, List.append_nil] at ha
        have hnlM : '\n' ∉ afterMatch old cs := by
          rw [← ha]
          exact lineOf_no_nl_mem (afterMatch old cs)
        rw [ha]
        have hshape : groupOf cs ++ new ++ afterMatch old cs
            = hashRun cs ++ (wsRun (cs.drop (hashRun cs).length)
                ++ (new ++ afterMatch old cs)) := by
          unfold groupOf
          simp [List.append_assoc]
        rw [hshape]
        cases hdw : (wsRun (cs.drop (hashRun cs).length)).drop
            (lineOf (wsRun (cs.drop (hashRun cs).length))).length with
        | nil =>
          have hdecW := lineOf_decomp (wsRun (cs.drop (hashRun cs).length))
          rw [hdw, List.append_nil] at hdecW
          have hnlw : '\n' ∉ wsRun (cs.drop (hashRun cs).length) := by
            rw [← hdecW]
            exact lineOf_no_nl_mem _
          rw [hasMatch_nolf old (List.not_mem_append hnlA (List.not_mem_append hnlw
            (List.not_mem_append (valid_no_newline hn) hnlM)))]
          exact matchAt_group_new hn hnr hA_ne hAall hW_ne hWall hb
        | cons y rest =>
          have hy := drop_lineOf_head hdw
          have hdecW := lineOf_decomp (wsRun (cs.drop (hashRun cs).length))
          rw [hdw, hy] at hdecW
          have hallrest : ∀ c ∈ rest, pyIsSpace c = true := fun c hc => hWall c (by
            rw [← hdecW]
            exact List.mem_append_right _ (List.mem_cons_of_mem _ hc))
          have hassoc : hashRun cs ++ (wsRun (cs.drop (hashRun cs).length)
                ++ (new ++ afterMatch old cs))
              = (hashRun cs ++ lineOf (wsRun (cs.drop (hashRun cs).length)))
                ++ '\n' :: (rest ++ (new ++ afterMatch old cs)) := by
            conv_lhs => rw [← hdecW]
            simp [List.append_assoc]
          rw [hassoc, hasMatch_lf_or old _ _
            (List.not_mem_append hnlA (lineOf_no_nl_mem _)), ← hassoc,
            matchAt_group_new hn hnr hA_ne hAall hW_ne hWall hb, Bool.false_or]
          exact scan_ws_flat hn rest.length rest (afterMatch old cs) (Nat.le_refl _)
            hallrest hnlM
      | cons x rest2 =>
        dsimp only
        have hx := drop_lineOf_head hdrop
        have ha := lineOf_decomp (afterMatch old cs)
        rw [hdrop, hx] at ha
        have hnlL2 : '\n' ∉ lineOf (afterMatch old cs) := lineOf_no_nl_mem _
        have hlen2 : rest2.length ≤ n := by
          have h3 := congrArg List.length ha
          have h4 := afterMatch_length_le old cs
          simp only [List.length_append, List.length_cons] at h3
          omega
        have hrec := ih rest2 hlen2
        have hbd : boundaryB (lineOf (afterMatch old cs)
            ++ '\n' :: pySubHeaders old new rest2) = true :=
          boundary_line hb ha _
        have hshape : groupOf cs ++ new ++ lineOf (afterMatch old cs)
              ++ '\n' :: pySubHeaders old new rest2
            = hashRun cs ++ (wsRun (cs.drop (hashRun cs).length)
                ++ (new ++ (lineOf (afterMatch old cs)
                  ++ '\n' :: pySubHeaders old new rest2))) := by
          unfold groupOf
          simp [List.append_assoc]
        rw [hshape]
        cases hdw : (wsRun (cs.drop (hashRun cs).length)).drop
            (lineOf (wsRun (cs.drop (hashRun cs).length))).length with
        | nil =>
          have hdecW := lineOf_decomp (wsRun (cs.drop (hashRun cs).length))
          rw [hdw, List.append_nil] at hdecW
          have hnlw : '\n' ∉ wsRun (cs.drop (hashRun cs).length) := by
            rw [← hdecW]
            exact lineOf_no_nl_mem _
          have hassoc : hashRun cs ++ (wsRun (cs.drop (hashRun cs).length)
                ++ (new ++ (lineOf (afterMatch old cs)
                  ++ '\n' :: pySubHeaders old new rest2)))
              = (hashRun cs ++ (wsRun (cs.drop (hashRun cs).length)
                  ++ (new ++ lineOf (afterMatch old cs))))
                ++ '\n' :: pySubHeaders old new rest2 := by
            simp [List.append_assoc]
          rw [hassoc, hasMatch_lf_or old _ _
            (List.not_mem_append hnlA (List.not_mem_append hnlw
              (List.not_mem_append (valid_no_newline hn) hnlL2))), ← hassoc,
            matchAt_group_new hn hnr hA_ne hAall hW_ne hWall hbd, Bool.false_or]
          exact hrec
        | cons y rest =>
          have hy := drop_lineOf_head hdw
          have hdecW := lineOf_decomp (wsRun (cs.drop (hashRun cs).length))
          rw [hdw, hy] at hdecW
          have hallrest : ∀ c ∈ rest, pyIsSpace c = true := fun c hc => hWall c (by
            rw [← hdecW]
            exact List.mem_append_right _ (List.mem_cons_of_mem _ hc))
          have hassoc : hashRun cs ++ (wsRun (cs.drop (hashRun cs).length)
                ++ (new ++ (lineOf (afterMatch old cs)
                  ++ '\n' :: pySubHeaders old new rest2)))
              = (hashRun cs ++ lineOf (wsRun (cs.drop (hashRun cs).length)))
                ++ '\n' :: (rest ++ (new ++ (lineOf (afterMatch old cs)
                  ++ '\n' :: pySubHeaders old new rest2))) := by
            conv_lhs => rw [← hdecW]
            simp [List.append_assoc]
          rw [hassoc, hasMatch_lf_or old _ _
            (List.not_mem_append hnlA (lineOf_no_nl_mem _)), ← hassoc,
            matchAt_group_new hn hnr hA_ne hAall hW_ne hWall hbd, Bool.false_or,
            scan_ws_cont hn rest.length rest _ _ (Nat.le_refl _) hallrest hnlL2]
          exact hrec
    · cases hdrop : cs.drop (lineOf cs).length with
      | nil =>
        have hdec := lineOf_decomp cs
        rw [hdrop, List.append_nil] at hdec
        have hnl : '\n' ∉ cs := by
          rw [← hdec]
          exact lineOf_no_nl_mem cs
        rw [sub_nolf old new hnl]
        unfold rewriteLine
        rw [if_neg hm, hasMatch_nolf old hnl]
        exact Bool.eq_false_iff.mpr hm
      | cons x rest2 =>
        have hx := drop_lineOf_head hdrop
        have hdec := lineOf_decomp cs
        rw [hdrop, hx] at hdec
        have hlen2 : rest2.length ≤ n := by
          have h3 := congrArg List.length hdec
          simp only [List.length_append, List.length_cons] at h3
          omega
        have hrec := ih rest2 hlen2
        have hm2 : matchAtB old (lineOf cs ++ '\n' :: rest2) = false := by
          rw [hdec]
          exact Bool.eq_false_iff.mpr hm
        have hstep : pySubHeaders old new cs
            = lineOf cs ++ '\n' :: pySubHeaders old new rest2 := by
          conv_lhs => rw [← hdec]
          exact sub_step_nomatch old new _ _ (lineOf_no_nl_mem cs) hm2
        rw [hstep, hasMatch_lf_or old _ _ (lineOf_no_nl_mem cs)]
        by_cases hhw : hashWsOnlyB (lineOf cs) = true
        · have h6 : wsTailMatch old rest2 = false := by
            have h7 := hm2
            rw [matchAt_hashws hhw] at h7
            exact h7
          rw [matchAt_hashws hhw,
            wsTail_transfer ho rest2.length rest2 (Nat.le_refl _) h6, hrec]
          rfl
        · have hhw' : hashWsOnlyB (lineOf cs) = false := Bool.eq_false_iff.mpr hhw
          have h7 := hm2
          rw [matchAt_append_newline ho _ _ hhw'] at h7
          rw [matchAt_append_newline ho _ _ hhw', h7, hrec]
          rfl

/-- C8 (amended): a second application of `apply_renumbering` with the same
old/new pair is a no-op with `changed = false`, provided old and new are
well-formed dotted numbers, distinct, and neither matches at a boundary
inside the other (`titleMatchB old new = titleMatchB new old = false` —
ruling out pairs such as old `5.2`, new `5.2.1`, where the replacement
text re-creates a match).  This holds for every body, including bodies
with heading-marks-and-whitespace-only lines where matches cross line
breaks. -/
theorem apply_renumbering_idempotent_amended (title body : List Char)
    ( old_number new_number : List Char)
    (ho : validNumberB old_number = true) (hn : validNumberB new_number = true)
    (hne : old_number ≠ new_number)
    (h1 : titleMatchB old_number new_number = false)
    (h2 : titleMatchB new_number old_number = false) :
    apply_renumbering (apply_renumbering title body old_number new_number).1
        (apply_renumbering title body old_number new_number).2.1 old_number new_number
      = ((apply_renumbering title body old_number new_number).1,
          (apply_renumbering title body old_number new_number).2.1, false) := by
  have hnr := no_rematch ho hn h1 h2
  rw [apply_renumbering_eq title body]
  dsimp only
  rw [apply_renumbering_eq]
  have hT : titleMatchB old_number (pyStrip
      (if titleMatchB old_number (pyStrip title) = true
       then new_number ++ (pyStrip title).drop old_number.length else title)) = false := by
    by_cases hc : titleMatchB old_number (pyStrip title) = true
    · rw [if_pos hc]
      unfold titleMatchB at hc
      rw [Bool.and_eq_true] at hc
      obtain ⟨hpre, hbd⟩ := hc
      rw [strip_of_title_rewrite hn (pyStrip_last title)]
      exact hnr _ hbd
    · rw [if_neg hc]
      exact Bool.eq_false_iff.mpr hc
  have hB : pySearchHeader old_number
      (if pySearchHeader old_number body = true
       then pySubHeaders old_number new_number body else body) = false := by
    by_cases hd : pySearchHeader old_number body = true
    · rw [if_pos hd]
      exact search_sub_false ho hn hnr body.length body (Nat.le_refl _)
    · rw [if_neg hd]
      exact Bool.eq_false_iff.mpr hd
  rw [hT, hB, if_neg Bool.false_ne_true, if_neg Bool.false_ne_true, Bool.or_false]

theorem apply_renumbering_idempotent_amended_witness :
    (validNumberB "5.2".toList = true ∧ validNumberB "5.3".toList = true ∧
     "5.2".toList ≠ "5.3".toList ∧
     titleMatchB "5.2".toList "5.3".toList = false ∧
     titleMatchB "5.3".toList "5.2".toList = false) ∧
    apply_renumbering
        (apply_renumbering "5.2 Intro".toList "# 5.2 Intro\nsee 5.2.2\n## 5.2.1 Sub".toList
          "5.2".toList "5.3".toList).1
        (apply_renumbering "5.2 Intro".toList "# 5.2 Intro\nsee 5.2.2\n## 5.2.1 Sub".toList
          "5.2".toList "5.3".toList).2.1 "5.2".toList "5.3".toList
      = ((apply_renumbering "5.2 Intro".toList "# 5.2 Intro\nsee 5.2.2\n## 5.2.1 Sub".toList
            "5.2".toList "5.3".toList).1,
          (apply_renumbering "5.2 Intro".toList "# 5.2 Intro\nsee 5.2.2\n## 5.2.1 Sub".toList
            "5.2".toList "5.3".toList).2.1, false) :=
  ⟨⟨by decide, by decide, by decide, by decide, by decide⟩,
    apply_renumbering_idempotent_amended "5.2 Intro".toList
      "# 5.2 Intro\nsee 5.2.2\n## 5.2.1 Sub".toList "5.2".toList "5.3".toList
      (by decide) (by decide) (by decide) (by decide) (by decide)⟩
